import Mathlib

/-!
Verification of the text-processing core of the Best-of-Brock cookbook
utilities: the recipe-quantity parser/formatter and line scaler
(`multiplier` script) and the shopping-list normalizer/exclusion filter
(`Shopping.js`).

The JavaScript is embedded shallowly over `List Char` strings.  JavaScript
numbers are idealised as exact rationals `ℚ`, extended with the special
values `Infinity`, `-Infinity` and `NaN` in the type `JSNum` (these arise
here only from division by a zero denominator and from `parseFloat`
failure).  The decimal strings that `String(1/3)` etc. produce in
JavaScript are recorded verbatim in the substitution table, so parse
results match the JavaScript values to within the double-precision error,
which is far below the 0.04 tolerance used throughout.  The literals 0.04
and 0.96 of the source are modelled as the exact rationals 1/25 and 24/25.
-/

set_option maxRecDepth 4000

unseal Rat.add Rat.mul Rat.sub Rat.inv

abbrev Chars := List Char

/-- JavaScript whitespace (the class `\s`, also used by `String.prototype.trim`). -/
def isWSChar (c : Char) : Bool :=
  decide (c.toNat = 32 ∨ (9 ≤ c.toNat ∧ c.toNat ≤ 13) ∨ c.toNat = 160 ∨
    c.toNat = 0x1680 ∨ (0x2000 ≤ c.toNat ∧ c.toNat ≤ 0x200A) ∨ c.toNat = 0x2028 ∨
    c.toNat = 0x2029 ∨ c.toNat = 0x202F ∨ c.toNat = 0x205F ∨ c.toNat = 0x3000 ∨
    c.toNat = 0xFEFF)

/-- The regex class `\d`. -/
def isDigitC (c : Char) : Bool :=
  decide (48 ≤ c.toNat ∧ c.toNat ≤ 57)

/-- The regex class `[\d¼-¾⅐-⅞]` used by the leading-quantity pattern. -/
def isDigitOrGlyph (c : Char) : Bool :=
  isDigitC c || decide (0xBC ≤ c.toNat ∧ c.toNat ≤ 0xBE) ||
    decide (0x2150 ≤ c.toNat ∧ c.toNat ≤ 0x215E)

/-- JavaScript line terminators (not matched by the regex `.`). -/
def isLineTerm (c : Char) : Bool :=
  decide (c.toNat = 10 ∨ c.toNat = 13 ∨ c.toNat = 0x2028 ∨ c.toNat = 0x2029)

/-- `String.prototype.trim`. -/
def trimC (l : Chars) : Chars :=
  ((l.dropWhile isWSChar).reverse.dropWhile isWSChar).reverse

/-- A JavaScript number: finite value, the two infinities, or NaN. -/
inductive JSNum : Type
  | val (q : ℚ)
  | inf
  | ninf
  | nan
deriving DecidableEq

/-- Numeric value of a decimal digit character. -/
def digitVal (c : Char) : ℕ := c.toNat - 48

/-- Value of a big-endian string of decimal digits (what `parseInt(s, 10)` returns
on an all-digit capture). -/
def digitsVal (l : Chars) : ℕ := l.foldl (fun a c => 10 * a + digitVal c) 0

/-- JavaScript division `a / b` of two non-negative integers. -/
def jdivNat (a b : ℕ) : JSNum :=
  if b = 0 then (if a = 0 then .nan else .inf) else .val ((a : ℚ) / (b : ℚ))

/-- JavaScript addition of a non-negative integer and a number. -/
def addWhole (w : ℕ) : JSNum → JSNum
  | .val q => .val ((w : ℚ) + q)
  | .inf => .inf
  | .ninf => .ninf
  | .nan => .nan

/-- JavaScript multiplication of a number by a rational factor. -/
def mulJS (n : JSNum) (r : ℚ) : JSNum :=
  match n with
  | .val q => .val (q * r)
  | .inf => if 0 < r then .inf else if r < 0 then .ninf else .nan
  | .ninf => if 0 < r then .ninf else if r < 0 then .inf else .nan
  | .nan => .nan

/-- The exponent part `[eE][+-]?\d+` accepted by `parseFloat` right after the
mantissa; an incomplete exponent is ignored (contributes 0), matching the
longest-valid-prefix behaviour of `parseFloat`. -/
def expPart (l : Chars) : ℤ :=
  if l.head? = some 'e' ∨ l.head? = some 'E' then
    let r := l.tail
    if r.head? = some '+' then
      let d := r.tail.takeWhile isDigitC
      if d = [] then 0 else (digitsVal d : ℤ)
    else if r.head? = some '-' then
      let d := r.tail.takeWhile isDigitC
      if d = [] then 0 else -(digitsVal d : ℤ)
    else
      let d := r.takeWhile isDigitC
      if d = [] then 0 else (digitsVal d : ℤ)
  else 0

/-- JavaScript `parseFloat`: skip leading whitespace, optional sign, then the
longest prefix that is a valid decimal literal (or the literal `Infinity`);
no valid prefix yields NaN. -/
def parseFloatJS (l : Chars) : JSNum :=
  let l1 := l.dropWhile isWSChar
  let neg : Bool := decide (l1.head? = some '-')
  let l2 : Chars :=
    if l1.head? = some '-' ∨ l1.head? = some '+' then l1.tail else l1
  if l2.take 8 = "Infinity".data then (if neg then .ninf else .inf)
  else
    let ds := l2.takeWhile isDigitC
    let r1 := l2.dropWhile isDigitC
    let fs : Chars := if r1.head? = some '.' then r1.tail.takeWhile isDigitC else []
    let r2 : Chars := if r1.head? = some '.' then r1.tail.dropWhile isDigitC else r1
    if ds = [] ∧ fs = [] then .nan
    else
      let mant : ℚ := (digitsVal ds : ℚ) + (digitsVal fs : ℚ) / 10 ^ fs.length
      let v : ℚ := mant * (10 : ℚ) ^ expPart r2
      .val (if neg then -v else v)

/-- The unicode-fraction substitution table of `parseQuantity`, in the object's
insertion order.  The replacement text is the JavaScript rendering
`String(value)` of the corresponding double. -/
def substTable : List (Char × Chars) :=
  [('¼', "0.25".data), ('½', "0.5".data), ('¾', "0.75".data),
   ('⅓', "0.3333333333333333".data), ('⅔', "0.6666666666666666".data),
   ('⅕', "0.2".data), ('⅖', "0.4".data), ('⅗', "0.6".data),
   ('⅘', "0.8".data), ('⅙', "0.16666666666666666".data),
   ('⅚', "0.8333333333333334".data), ('⅛', "0.125".data),
   ('⅜', "0.375".data), ('⅝', "0.625".data), ('⅞', "0.875".data)]

/-- `str.replace(pat, rep)` with a plain one-character string pattern:
only the first occurrence is replaced. -/
def replaceFirstC (g : Char) (rep : Chars) : Chars → Chars
  | [] => []
  | c :: t => if c = g then rep ++ t else c :: replaceFirstC g rep t

/-- The unicode-fraction substitution loop of `parseQuantity`: each glyph is
replaced (first occurrence only) by a space followed by its decimal text. -/
def substFracs (l : Chars) : Chars :=
  substTable.foldl (fun s e => replaceFirstC e.1 (' ' :: e.2) s) l

/-- The anchored pattern of a mixed number, `^(\d+)\s+(\d+)\s*\/\s*(\d+)$`. -/
def matchMixed (s : Chars) : Option (ℕ × ℕ × ℕ) :=
  let d1 := s.takeWhile isDigitC
  let r1 := s.dropWhile isDigitC
  let w1 := r1.takeWhile isWSChar
  let r2 := r1.dropWhile isWSChar
  let d2 := r2.takeWhile isDigitC
  let r3 := r2.dropWhile isDigitC
  let rr := r3.dropWhile isWSChar
  if rr.head? = some '/' then
    let r5 := rr.tail.dropWhile isWSChar
    let d3 := r5.takeWhile isDigitC
    let r6 := r5.dropWhile isDigitC
    if d1 ≠ [] ∧ w1 ≠ [] ∧ d2 ≠ [] ∧ d3 ≠ [] ∧ r6 = []
    then some (digitsVal d1, digitsVal d2, digitsVal d3) else none
  else none

/-- The anchored pattern of a simple fraction, `^(\d+)\s*\/\s*(\d+)$`. -/
def matchFrac (s : Chars) : Option (ℕ × ℕ) :=
  let d1 := s.takeWhile isDigitC
  let r1 := s.dropWhile isDigitC
  let rr := r1.dropWhile isWSChar
  if rr.head? = some '/' then
    let r3 := rr.tail.dropWhile isWSChar
    let d2 := r3.takeWhile isDigitC
    let r4 := r3.dropWhile isDigitC
    if d1 ≠ [] ∧ d2 ≠ [] ∧ r4 = [] then some (digitsVal d1, digitsVal d2) else none
  else none

/-- The anchored pattern `^(\d+)\s+([\d.]+)$` (integer followed by a
digits-and-dots token, produced after unicode substitution). -/
def matchMixedDec (s : Chars) : Option (ℕ × Chars) :=
  let d1 := s.takeWhile isDigitC
  let r1 := s.dropWhile isDigitC
  let w1 := r1.takeWhile isWSChar
  let r2 := r1.dropWhile isWSChar
  if d1 ≠ [] ∧ w1 ≠ [] ∧ r2 ≠ [] ∧ (∀ c ∈ r2, isDigitC c = true ∨ c = '.')
  then some (digitsVal d1, r2) else none

/-- The pattern cascade of `parseQuantity` applied to the substituted,
re-trimmed string. -/
def parseCore (s : Chars) : JSNum :=
  match matchMixed s with
  | some (a, b, c) => addWhole a (jdivNat b c)
  | none =>
    match matchFrac s with
    | some (b, c) => jdivNat b c
    | none =>
      match matchMixedDec s with
      | some (w, tok) => addWhole w (parseFloatJS tok)
      | none => parseFloatJS s

/-- `parseQuantity` from the recipe multiplier: trim, reject empty, substitute
unicode vulgar fractions, re-trim, then try mixed number, simple fraction,
mixed decimal, and finally plain `parseFloat`. -/
def parseQuantity (l : Chars) : JSNum :=
  let s0 := trimC l
  if s0 = [] then .nan else parseCore (trimC (substFracs s0))

/-- Digit character of `n % 10`. -/
def digitChar (n : ℕ) : Char := Char.ofNat (48 + n % 10)

/-- Decimal digits of a natural number, big-endian (fuel-driven so that it
unfolds by kernel reduction). -/
def natCharsAux : ℕ → ℕ → Chars
  | 0, _ => []
  | fuel + 1, n =>
    if n < 10 then [digitChar n] else natCharsAux fuel (n / 10) ++ [digitChar (n % 10)]

/-- JavaScript rendering `String(n)` of a non-negative integer. -/
def natChars (n : ℕ) : Chars := natCharsAux (n + 1) n

/-- The ordered common-fraction table of `formatQuantity`, each value paired
with its display text. -/
def fractionTable : List (ℚ × Chars) :=
  [(1/8, ['⅛']), (1/6, "1/6".data), (1/4, ['¼']), (1/3, ['⅓']),
   (3/8, ['⅜']), (1/2, ['½']), (5/8, ['⅝']), (2/3, ['⅔']),
   (3/4, ['¾']), (5/6, "5/6".data), (7/8, ['⅞'])]

/-- `n.toFixed(2)` for a positive rational: round `100*n` half-up (ties away
from zero for positive input, per the ECMAScript larger-`n` rule) and print
with exactly two decimals. -/
def toFixed2 (q : ℚ) : Chars :=
  let m : ℕ := (⌊q * 100 + 1/2⌋).toNat
  natChars (m / 100) ++ '.' :: [digitChar (m / 10 % 10), digitChar (m % 10)]

/-- `.replace(/\.?0+$/, '')`: drop trailing zeros and, when they directly
follow the decimal point, the point as well. -/
def stripTrail (l : Chars) : Chars :=
  let r := l.reverse
  if r.takeWhile (fun c => c = '0') = [] then l
  else
    let r1 := r.dropWhile (fun c => c = '0')
    if r1.head? = some '.' then r1.tail.reverse else r1.reverse

/-- `formatQuantity` from the recipe multiplier. -/
def formatQuantity (q : ℚ) : Chars :=
  if q ≤ 0 then ['0']
  else
    let whole : ℕ := (⌊q⌋).toNat
    let frac : ℚ := q - (whole : ℚ)
    match fractionTable.find? (fun e => decide (|frac - e.1| < 1/25)) with
    | some e => if whole = 0 then e.2 else natChars whole ++ ' ' :: e.2
    | none =>
      if frac < 1/25 then natChars whole
      else if frac > 24/25 then natChars (whole + 1)
      else stripTrail (toFixed2 q)

/-- `formatQuantity` extended to the special values, as the JavaScript source
behaves on them (`Infinity` falls through every comparison to `toFixed`,
which prints "Infinity"; likewise "NaN"; `-Infinity <= 0` prints "0"). -/
def formatJS : JSNum → Chars
  | .val q => formatQuantity q
  | .inf => "Infinity".data
  | .ninf => ['0']
  | .nan => "NaN".data

/-- The optional fraction suffix `(?:\s*\/\s*\d+)?` inside the leading-quantity
pattern; returns the matched text and the remainder.  (Because whitespace,
`/` and digits are pairwise disjoint classes, greedy matching of this piece
is deterministic.) -/
def fracSuf (l : Chars) : Option (Chars × Chars) :=
  let s1 := l.takeWhile isWSChar
  let rr := l.dropWhile isWSChar
  if rr.head? = some '/' then
    let r2 := rr.tail
    let s2 := r2.takeWhile isWSChar
    let r3 := r2.dropWhile isWSChar
    let d := r3.takeWhile isDigitC
    let r4 := r3.dropWhile isDigitC
    if d = [] then none else some (s1 ++ '/' :: (s2 ++ d), r4)
  else none

/-- Candidates for capture group 1 of the leading-quantity regex
`^([\d¼-¾⅐-⅞]+(?:\s*\/\s*\d+)?(?:\s+[\d¼-¾⅐-⅞]+(?:\s*\/\s*\d+)?)?)\s+(.*)`,
in the order a backtracking engine tries them (each optional piece present
before absent, outermost first).  Each candidate is the captured text paired
with the remainder of the line. -/
def qtyCands (l : Chars) : List (Chars × Chars) :=
  let a := l.takeWhile isDigitOrGlyph
  let r0 := l.dropWhile isDigitOrGlyph
  if a = [] then []
  else
    let sCands : Chars → List (Chars × Chars) := fun r =>
      let w := r.takeWhile isWSChar
      let r1 := r.dropWhile isWSChar
      let d := r1.takeWhile isDigitOrGlyph
      let r2 := r1.dropWhile isDigitOrGlyph
      if w = [] ∨ d = [] then []
      else
        match fracSuf r2 with
        | some (m, r3) => [(w ++ d ++ m, r3), (w ++ d, r2)]
        | none => [(w ++ d, r2)]
    match fracSuf r0 with
    | some (m1, r1) =>
      ((sCands r1).map (fun p => (a ++ m1 ++ p.1, p.2))) ++ [(a ++ m1, r1)] ++
        ((sCands r0).map (fun p => (a ++ p.1, p.2))) ++ [(a, r0)]
    | none => ((sCands r0).map (fun p => (a ++ p.1, p.2))) ++ [(a, r0)]

/-- The trailing `\s+(.*)` of the leading-quantity regex: require at least one
whitespace character, then capture up to the next line terminator. -/
def finishQty (g1 r : Chars) : Option (Chars × Chars) :=
  if r.takeWhile isWSChar = [] then none
  else some (g1, (r.dropWhile isWSChar).takeWhile (fun c => !isLineTerm c))

/-- `line.match(/^([\d¼-¾⅐-⅞]+(?:\s*\/\s*\d+)?(?:\s+[\d¼-¾⅐-⅞]+(?:\s*\/\s*\d+)?)?)\s+(.*)/)`:
the first backtracking candidate for group 1 that is followed by whitespace
wins; returns (group 1, group 2). -/
def matchQty (l : Chars) : Option (Chars × Chars) :=
  (qtyCands l).findSome? (fun p => finishQty p.1 p.2)

/-- The per-line body of `Calculate`'s scaling loop: trim the line, pass blank
lines through as empty output, try the leading-quantity pattern, scale and
re-format on success, and push the trimmed line unchanged otherwise. -/
def processLine (r : ℚ) (raw : Chars) : Chars :=
  let line := trimC raw
  if line = [] then []
  else
    match matchQty line with
    | some (tok, rest) =>
      match parseQuantity tok with
      | .nan => line
      | q => formatJS (mulJS q r) ++ ' ' :: rest
    | none => line

/-- `text.split('\n')`. -/
def splitNL : Chars → List Chars
  | [] => [[]]
  | c :: t =>
    match splitNL t with
    | h :: rs => if c = '\n' then [] :: h :: rs else (c :: h) :: rs
    | [] => [[c]]

/-- `lines.join('\n')`. -/
def joinNL : List Chars → Chars
  | [] => []
  | [l] => l
  | l :: ls => l ++ '\n' :: joinNL ls

/-- The text-scaling core of `Calculate`: trim the whole input, return the
empty result on blank input, otherwise split into lines, process each line,
and re-join. -/
def scaleText (r : ℚ) (text : Chars) : Chars :=
  let t := trimC text
  if t = [] then [] else joinNL ((splitNL t).map (processLine r))

/-- ASCII lower-casing, the effect of `toLowerCase()` on the character set in
play here. -/
def lowerC (c : Char) : Char := c.toLower

/-- `replace(/\s+/g, ' ')`: each maximal whitespace run becomes one space. -/
def collapseWS : Chars → Chars
  | [] => []
  | c :: t =>
    if isWSChar c then
      match t with
      | c2 :: _ => if isWSChar c2 then collapseWS t else ' ' :: collapseWS t
      | [] => [' ']
    else c :: collapseWS t

/-- `normalizeItem` from Shopping.js: lowercase, collapse whitespace, trim. -/
def normalizeItem (l : Chars) : Chars := trimC (collapseWS (l.map lowerC))

/-- The unit-word alternation of the ingredient-name regex, expanded into the
concrete strings a backtracking engine tries, in order (each optional letter
present before absent, alternatives left to right). -/
def unitVariants : List Chars :=
  ["cups".data, "cup".data, "tbsp".data, "tsp".data, "oz".data, "lb".data,
   "lbs".data, "pounds".data, "pound".data, "ounces".data, "ounce".data,
   "quarts".data, "quart".data, "gallons".data, "gallon".data, "cans".data,
   "can".data, "packages".data, "package".data, "pkg".data, "bags".data,
   "bag".data, "bottles".data, "bottle".data, "jars".data, "jar".data,
   "bunches".data, "bunche".data, "bunchs".data, "bunch".data, "heads".data,
   "head".data, "cloves".data, "clove".data, "stalks".data, "stalk".data,
   "pieces".data, "piece".data, "slices".data, "slice".data, "sticks".data,
   "stick".data, "pinches".data, "pinche".data, "pinchs".data, "pinch".data,
   "dashes".data, "dashe".data, "dashs".data, "dash".data, "sm".data,
   "md".data, "lg".data, "small".data, "medium".data, "large".data]

/-- The leading character class `[\d\s\/\.]` of the ingredient-name regex. -/
def isUnitClassChar (c : Char) : Bool :=
  isDigitC c || isWSChar c || decide (c = '/') || decide (c = '.')

/-- Match one unit word (case-insensitively) followed by required whitespace,
returning the remainder after the whitespace run. -/
def stripUnitAt (l : Chars) : Option Chars :=
  unitVariants.findSome? fun v =>
    if (l.take v.length).map lowerC = v then
      let r := l.drop v.length
      if r.takeWhile isWSChar = [] then none else some (r.dropWhile isWSChar)
    else none

/-- `replace(/^[\d\s\/\.]+\s*(cups?|...)\s+/i, '')` applied to a normalized
item: strip one leading phrase of quantity characters (at least one) plus a
unit word plus whitespace; otherwise return the string unchanged.  (After a
maximal run of the leading class, which subsumes `\s*`, the unit word must
start at the first non-class character, so the backtracking search reduces
to this deterministic form.) -/
def ingredientKey (l : Chars) : Chars :=
  let run := l.takeWhile isUnitClassChar
  if run = [] then l
  else
    match stripUnitAt (l.dropWhile isUnitClassChar) with
    | some r => r
    | none => l

/-- The property names present on `Object.prototype` in a standard browser
engine, every one of whose values is truthy (the built-in methods are
functions, `constructor` is the `Object` function, and the legacy accessor
property named with a double underscore before and after `proto` reads back
the prototype object itself).  The property get `excludeSet[normalized]` on a
plain object literal consults this prototype after the own keys. -/
def protoProps : List Chars :=
  ["constructor".data, "hasOwnProperty".data, "isPrototypeOf".data,
   "propertyIsEnumerable".data, "toLocaleString".data, "toString".data,
   "valueOf".data, "__proto__".data, "__defineGetter__".data,
   "__defineSetter__".data, "__lookupGetter__".data, "__lookupSetter__".data]

/-- The exclusion test of `createList`.  The exact tier is the truthiness of
`excludeSet[normalized]`: an own key (stored exclusion entry, value `true`) or
an inherited `Object.prototype` property (all truthy).  The second tier
iterates `for...in` over the own enumerable keys only (inherited properties
are non-enumerable), comparing non-empty ingredient keys. -/
def isExcluded (exs : List Chars) (n : Chars) : Bool :=
  if n ∈ exs ∨ n ∈ protoProps then true
  else
    exs.any fun e =>
      decide (ingredientKey n ≠ [] ∧ ingredientKey e ≠ [] ∧
        ingredientKey n = ingredientKey e)

/-- The own keys of `excludeSet` built by `createList`: trim the exclusion
text, split into lines, and keep the normalized form of each non-blank line —
except a line normalizing to the legacy prototype accessor name, whose
assignment `excludeSet[k] = true` dispatches to the inherited setter and,
given a non-object value, silently creates no own key. -/
def parseExclusions (excludeText : Chars) : List Chars :=
  let ex := trimC excludeText
  if ex = [] then []
  else (splitNL ex).filterMap fun l =>
    let e := trimC l
    if e = [] then none
    else
      let n := normalizeItem e
      if n = "__proto__".data then none else some n

/-- The list-building core of `createList`: non-blank trimmed recipe lines,
filtered by the two-tier exclusion test on their normalized forms. -/
def buildShoppingList (recipeText excludeText : Chars) : List Chars :=
  let rt := trimC recipeText
  if rt = [] then []
  else
    let items := (splitNL rt).filterMap fun l =>
      let t := trimC l
      if t = [] then none else some t
    let exs := parseExclusions excludeText
    items.filter fun it => !isExcluded exs (normalizeItem it)


/-- Closeness of a parse result to a target value: the result is a finite
value within the 0.04 glyph-selection tolerance of the target. -/
def isClose (n : JSNum) (x : ℚ) : Prop :=
  match n with
  | .val q => |q - x| < 1/25
  | _ => False

/-- A parse result that is not negative: a non-negative finite value,
infinity, or the NaN sentinel, but never a negative value or `-Infinity`. -/
def nonnegResult : JSNum → Prop
  | .val q => 0 ≤ q
  | .ninf => False
  | _ => True

attribute [irreducible] isClose nonnegResult

/-- The per-line contract of the scaling loop: a trimmed line that fails the
leading-quantity pattern, or whose captured token parses to NaN, passes
through as the trimmed line; otherwise the scaled, re-formatted quantity is
prepended to the captured remainder. -/
def lineSpec (r : ℚ) (raw : Chars) : Prop :=
  (matchQty (trimC raw) = none → processLine r raw = trimC raw) ∧
  ∀ tok rest, matchQty (trimC raw) = some (tok, rest) →
    (parseQuantity tok = JSNum.nan → processLine r raw = trimC raw) ∧
    (parseQuantity tok ≠ JSNum.nan →
      processLine r raw = formatJS (mulJS (parseQuantity tok) r) ++ ' ' :: rest)

/-- First table entry whose value lies within the 0.04 tolerance of `frac`,
scanning in order (the selection rule as the design describes it). -/
def firstHit (frac : ℚ) : List (ℚ × Chars) → Option Chars
  | [] => none
  | e :: t => if |frac - e.1| < 1/25 then some e.2 else firstHit frac t

/-- The formatter exactly as the design text describes it: "0" on non-positive
input; otherwise split off the floor, scan the fixed 11-entry table in order
for the first fraction within 0.04, render glyph or "whole glyph"; else round
down below 0.04, round up above 0.96, else two decimals with trailing zeros
and a trailing point stripped. -/
def formatQuantitySpec (q : ℚ) : Chars :=
  if q ≤ 0 then ['0']
  else
    let whole : ℕ := (⌊q⌋).toNat
    let frac : ℚ := q - (whole : ℚ)
    match firstHit frac
        [(1/8, ['⅛']), (1/6, "1/6".data), (1/4, ['¼']), (1/3, ['⅓']),
         (3/8, ['⅜']), (1/2, ['½']), (5/8, ['⅝']), (2/3, ['⅔']),
         (3/4, ['¾']), (5/6, "5/6".data), (7/8, ['⅞'])] with
    | some g => if whole = 0 then g else natChars whole ++ ' ' :: g
    | none =>
      if frac < 1/25 then natChars whole
      else if frac > 24/25 then natChars (whole + 1)
      else stripTrail (toFixed2 q)

/-! ### Generic facts about character classes, takeWhile/dropWhile and trim -/

theorem takeWhile_all {p : Char → Bool} :
    ∀ l : Chars, (∀ c ∈ l, p c = true) → l.takeWhile p = l := by
  intro l h
  induction l with
  | nil => rfl
  | cons c t ih =>
    simp only [List.takeWhile_cons, h c (by simp)]
    simpa using ih fun x hx => h x (by simp [hx])

theorem dropWhile_all {p : Char → Bool} :
    ∀ l : Chars, (∀ c ∈ l, p c = true) → l.dropWhile p = [] := by
  intro l h
  induction l with
  | nil => rfl
  | cons c t ih =>
    simp only [List.dropWhile_cons, h c (by simp)]
    simpa using ih fun x hx => h x (by simp [hx])

theorem takeWhile_append_head {p : Char → Bool} (xs ys : Chars)
    (hxs : ∀ c ∈ xs, p c = true) (hy : ∀ c, ys.head? = some c → p c = false) :
    (xs ++ ys).takeWhile p = xs := by
  induction xs with
  | nil =>
    cases ys with
    | nil => rfl
    | cons y t => simp [List.takeWhile_cons, hy y rfl]
  | cons x t ih =>
    simp only [List.cons_append, List.takeWhile_cons, hxs x (by simp)]
    simpa using ih fun c hc => hxs c (by simp [hc])

theorem dropWhile_append_head {p : Char → Bool} (xs ys : Chars)
    (hxs : ∀ c ∈ xs, p c = true) (hy : ∀ c, ys.head? = some c → p c = false) :
    (xs ++ ys).dropWhile p = ys := by
  induction xs with
  | nil =>
    cases ys with
    | nil => rfl
    | cons y t => simp [List.dropWhile_cons, hy y rfl]
  | cons x t ih =>
    simp only [List.cons_append, List.dropWhile_cons, hxs x (by simp)]
    simpa using ih fun c hc => hxs c (by simp [hc])

theorem dropWhile_head_false {p : Char → Bool} (l : Chars)
    (h : ∀ c, l.head? = some c → p c = false) : l.dropWhile p = l := by
  cases l with
  | nil => rfl
  | cons c t => simp [List.dropWhile_cons, h c rfl]

theorem takeWhile_head_false {p : Char → Bool} (l : Chars)
    (h : ∀ c, l.head? = some c → p c = false) : l.takeWhile p = [] := by
  cases l with
  | nil => rfl
  | cons c t => simp [List.takeWhile_cons, h c rfl]

theorem head?_append_left (xs ys : Chars) (h : xs ≠ []) :
    (xs ++ ys).head? = xs.head? := by
  cases xs with
  | nil => exact absurd rfl h
  | cons x t => rfl

theorem mem_of_head? {l : Chars} {c : Char} (h : l.head? = some c) : c ∈ l := by
  cases l with
  | nil => simp at h
  | cons x t =>
    simp only [List.head?_cons, Option.some.injEq] at h
    simp [h]

theorem trimC_eq_self (l : Chars) (h1 : ∀ c, l.head? = some c → isWSChar c = false)
    (h2 : ∀ c, l.getLast? = some c → isWSChar c = false) : trimC l = l := by
  unfold trimC
  rw [dropWhile_head_false l h1]
  rw [dropWhile_head_false l.reverse
    (fun c hc => h2 c (by rwa [List.head?_reverse] at hc))]
  exact List.reverse_reverse l

theorem mem_trimC {l : Chars} {c : Char} (h : c ∈ trimC l) : c ∈ l := by
  unfold trimC at h
  rw [List.mem_reverse] at h
  have h2 := (List.dropWhile_sublist (l := (l.dropWhile isWSChar).reverse) isWSChar).mem h
  rw [List.mem_reverse] at h2
  exact (List.dropWhile_sublist isWSChar).mem h2

theorem digit_not_ws {c : Char} (h : isDigitC c = true) : isWSChar c = false := by
  simp only [isDigitC, decide_eq_true_eq] at h
  simp only [isWSChar, decide_eq_false_iff_not]
  omega

theorem digit_ne_of {c : Char} {d : Char} (h : isDigitC c = true)
    (hd : isDigitC d = false) : c ≠ d := by
  intro hc
  subst hc
  rw [h] at hd
  simp at hd

/-! ### Decimal rendering of natural numbers -/

theorem natCharsAux_congr :
    ∀ (n f₁ f₂ : ℕ), n < f₁ → n < f₂ → natCharsAux f₁ n = natCharsAux f₂ n := by
  intro n
  induction n using Nat.strong_induction_on with
  | _ n ih =>
    intro f₁ f₂ h₁ h₂
    match f₁, f₂ with
    | g₁ + 1, g₂ + 1 =>
      simp only [natCharsAux]
      by_cases h10 : n < 10
      · simp [h10]
      · have hd : n / 10 < n := Nat.div_lt_self (by omega) (by omega)
        simp only [h10, if_false]
        rw [ih (n / 10) hd g₁ g₂ (by omega) (by omega)]

theorem natCharsAux_succ (f n : ℕ) :
    natCharsAux (f + 1) n =
      if n < 10 then [digitChar n] else natCharsAux f (n / 10) ++ [digitChar (n % 10)] :=
  rfl

theorem natChars_eq (n : ℕ) :
    natChars n =
      if n < 10 then [digitChar n] else natChars (n / 10) ++ [digitChar (n % 10)] := by
  by_cases h : n < 10
  · rw [natChars, natCharsAux_succ, if_pos h, if_pos h]
  · have hd : n / 10 < n := Nat.div_lt_self (by omega) (by omega)
    rw [natChars, natCharsAux_succ, if_neg h, if_neg h,
      natCharsAux_congr (n / 10) n (n / 10 + 1) hd (by omega)]
    rfl

theorem digitChar_digit (d : ℕ) : isDigitC (digitChar d) = true := by
  have h : d % 10 < 10 := Nat.mod_lt _ (by omega)
  have hall : ∀ k, k < 10 → isDigitC (Char.ofNat (48 + k)) = true := by decide
  exact hall _ h

theorem digitVal_digitChar (d : ℕ) : digitVal (digitChar d) = d % 10 := by
  have h : d % 10 < 10 := Nat.mod_lt _ (by omega)
  have hall : ∀ k, k < 10 → digitVal (Char.ofNat (48 + k)) = k := by decide
  exact hall _ h

theorem digitChar_eq_zero_iff (d : ℕ) : digitChar d = '0' ↔ d % 10 = 0 := by
  have h : d % 10 < 10 := Nat.mod_lt _ (by omega)
  have hall : ∀ k, k < 10 → ((Char.ofNat (48 + k) = '0') ↔ k = 0) := by decide
  exact hall _ h

theorem digitChar_ne_dot (d : ℕ) : digitChar d ≠ '.' := by
  have h : d % 10 < 10 := Nat.mod_lt _ (by omega)
  have hall : ∀ k, k < 10 → Char.ofNat (48 + k) ≠ '.' := by decide
  exact hall _ h

theorem natChars_digits : ∀ n : ℕ, ∀ c ∈ natChars n, isDigitC c = true := by
  intro n
  induction n using Nat.strong_induction_on with
  | _ n ih =>
    rw [natChars_eq]
    by_cases h : n < 10
    · simp only [h, if_true, List.mem_singleton]
      rintro c rfl
      exact digitChar_digit n
    · have hd : n / 10 < n := Nat.div_lt_self (by omega) (by omega)
      simp only [h, if_false, List.mem_append, List.mem_singleton]
      rintro c (hc | rfl)
      · exact ih _ hd c hc
      · exact digitChar_digit _

theorem natChars_ne_nil (n : ℕ) : natChars n ≠ [] := by
  rw [natChars_eq]
  by_cases h : n < 10 <;> simp [h]

theorem digitsVal_concat (xs : Chars) (c : Char) :
    digitsVal (xs ++ [c]) = 10 * digitsVal xs + digitVal c := by
  simp [digitsVal, List.foldl_append]

theorem digitsVal_natChars : ∀ n : ℕ, digitsVal (natChars n) = n := by
  intro n
  induction n using Nat.strong_induction_on with
  | _ n ih =>
    rw [natChars_eq]
    by_cases h : n < 10
    · simp only [h, if_true]
      have : digitsVal [digitChar n] = digitVal (digitChar n) := by
        simp [digitsVal]
      rw [this, digitVal_digitChar]
      omega
    · have hd : n / 10 < n := Nat.div_lt_self (by omega) (by omega)
      simp only [h, if_false]
      rw [digitsVal_concat, ih _ hd, digitVal_digitChar]
      omega

/-! ### Behaviour of the unicode-fraction substitution -/

theorem replaceFirstC_not_mem {g : Char} {rep : Chars} :
    ∀ l : Chars, g ∉ l → replaceFirstC g rep l = l := by
  intro l h
  induction l with
  | nil => rfl
  | cons c t ih =>
    have hc : c ≠ g := fun hc => h (by simp [hc])
    simp only [replaceFirstC, if_neg hc]
    rw [ih (fun hm => h (by simp [hm]))]

theorem replaceFirstC_append_ne {g : Char} {rep : Chars} (xs ys : Chars) (h : g ∉ xs) :
    replaceFirstC g rep (xs ++ ys) = xs ++ replaceFirstC g rep ys := by
  induction xs with
  | nil => rfl
  | cons x t ih =>
    have hx : x ≠ g := fun hx => h (by simp [hx])
    simp only [List.cons_append, replaceFirstC, if_neg hx, List.append_eq]
    rw [ih (fun hm => h (by simp [hm]))]

theorem mem_replaceFirstC {c g : Char} {rep : Chars} :
    ∀ l : Chars, c ∈ replaceFirstC g rep l → c ∈ l ∨ c ∈ rep := by
  intro l h
  induction l with
  | nil => simp [replaceFirstC] at h
  | cons x t ih =>
    by_cases hx : x = g
    · simp only [replaceFirstC, if_pos hx, List.mem_append] at h
      rcases h with h | h
      · exact Or.inr h
      · exact Or.inl (by simp [h])
    · simp only [replaceFirstC, if_neg hx, List.mem_cons] at h
      rcases h with rfl | h
      · exact Or.inl (by simp)
      · rcases ih h with h | h
        · exact Or.inl (by simp [h])
        · exact Or.inr h

theorem foldl_subst_nochange :
    ∀ (ts : List (Char × Chars)) (l : Chars), (∀ e ∈ ts, e.1 ∉ l) →
      ts.foldl (fun s e => replaceFirstC e.1 (' ' :: e.2) s) l = l := by
  intro ts
  induction ts with
  | nil => intro l _; rfl
  | cons e₀ ts ih =>
    intro l h
    simp only [List.foldl_cons]
    rw [replaceFirstC_not_mem l (h e₀ (by simp))]
    exact ih l fun e he => h e (by simp [he])

theorem substFracs_plain (l : Chars) (h : ∀ c ∈ l, c.toNat < 0xBC) :
    substFracs l = l := by
  apply foldl_subst_nochange
  intro e he hmem
  have htab : ∀ e ∈ substTable, 0xBC ≤ e.1.toNat := by decide
  exact absurd (h e.1 hmem) (by simpa using htab e he)

theorem foldl_subst_single :
    ∀ (ts : List (Char × Chars)) (pre : Chars) (G : Char) (D : Chars),
      (G, D) ∈ ts → (ts.map Prod.fst).Nodup →
      (∀ e ∈ ts, ∀ c ∈ e.2, c.toNat < 0xBC) →
      (∀ e ∈ ts, 0xBC ≤ e.1.toNat) →
      (∀ c ∈ pre, c.toNat < 0xBC) →
      ts.foldl (fun s e => replaceFirstC e.1 (' ' :: e.2) s) (pre ++ [G]) =
        pre ++ ' ' :: D := by
  intro ts
  induction ts with
  | nil => intro pre G D h _ _ _ _; simp at h
  | cons e₀ ts ih =>
    rcases e₀ with ⟨g₀, d₀⟩
    intro pre G D hmem hnd hreps hglyphs hpre
    have hG : 0xBC ≤ G.toNat := by
      have := hglyphs (G, D) hmem
      simpa using this
    have hGpre : G ∉ pre := fun hc => by
      have := hpre G hc
      omega
    have hnd2 : g₀ ∉ ts.map Prod.fst ∧ (ts.map Prod.fst).Nodup := by
      rw [List.map_cons, List.nodup_cons] at hnd
      exact hnd
    rcases List.mem_cons.mp hmem with heq | htail
    · injection heq with h1 h2
      subst h1
      subst h2
      simp only [List.foldl_cons]
      rw [replaceFirstC_append_ne pre [G] hGpre]
      have hrep : replaceFirstC G (' ' :: D) [G] = ' ' :: D := by
        simp [replaceFirstC]
      rw [hrep]
      apply foldl_subst_nochange
      intro e he hmm
      have hge : 0xBC ≤ e.1.toNat := hglyphs e (by simp [he])
      rcases List.mem_append.mp hmm with hp | hp
      · have := hpre e.1 hp
        omega
      · rcases List.mem_cons.mp hp with hsp | hdp
        · rw [hsp] at hge
          simp at hge
        · have := hreps (G, D) (by simp) e.1 hdp
          omega
    · have hgts : G ∈ ts.map Prod.fst := by
        exact List.mem_map_of_mem Prod.fst htail
      have hne : G ≠ g₀ := fun h => by
        rw [h] at hgts
        exact hnd2.1 hgts
      simp only [List.foldl_cons]
      rw [replaceFirstC_not_mem (pre ++ [G]) ?hnm]
      case hnm =>
        intro hm
        rcases List.mem_append.mp hm with hp | hp
        · have h1 := hpre g₀ hp
          have h2 := hglyphs (g₀, d₀) (by simp)
          simp at h2
          omega
        · simp only [List.mem_singleton] at hp
          exact hne (by rw [hp])
      exact ih pre G D htail hnd2.2
        (fun e he => hreps e (by simp [he])) (fun e he => hglyphs e (by simp [he])) hpre

theorem substFracs_glyph (pre : Chars) (G : Char) (D : Chars)
    (hmem : (G, D) ∈ substTable) (hpre : ∀ c ∈ pre, c.toNat < 0xBC) :
    substFracs (pre ++ [G]) = pre ++ ' ' :: D := by
  apply foldl_subst_single substTable pre G D hmem (by decide) ?h1 ?h2 hpre
  case h1 => decide
  case h2 => decide

theorem getLast?_append_right (xs ys : Chars) (h : ys ≠ []) :
    (xs ++ ys).getLast? = ys.getLast? := by
  cases hy : ys.getLast? with
  | none =>
    exact absurd (List.getLast?_eq_none_iff.mp hy) h
  | some a =>
    rw [List.getLast?_append, hy]
    rfl

/-! ### The parser on rendered numbers -/

theorem dropWhile_head_not {p : Char → Bool} :
    ∀ (l : Chars) (c : Char), (l.dropWhile p).head? = some c → p c = false := by
  intro l
  induction l with
  | nil => intro c hc; simp at hc
  | cons x t ih =>
    intro c hc
    by_cases hx : p x
    · rw [List.dropWhile_cons, if_pos hx] at hc
      exact ih c hc
    · rw [List.dropWhile_cons, if_neg hx] at hc
      simp only [List.head?_cons, Option.some.injEq] at hc
      rw [← hc]
      exact Bool.eq_false_iff.mpr hx

theorem exists_cons_of_ne_nil {l : Chars} (h : l ≠ []) : ∃ c t, l = c :: t := by
  cases l with
  | nil => exact absurd rfl h
  | cons c t => exact ⟨c, t, rfl⟩

theorem digitsVal_nil : digitsVal [] = 0 := rfl

theorem parseFloatJS_digits (n : ℕ) : parseFloatJS (natChars n) = .val (n : ℚ) := by
  obtain ⟨c₀, t₀, hA⟩ := exists_cons_of_ne_nil (natChars_ne_nil n)
  have hc₀ : isDigitC c₀ = true := natChars_digits n c₀ (by rw [hA]; simp)
  have hdigits := natChars_digits n
  have hws : (natChars n).dropWhile isWSChar = natChars n :=
    dropWhile_head_false _ (fun c hc => digit_not_ws (hdigits c (mem_of_head? hc)))
  have hsign : ¬ ((natChars n).head? = some '-') := by
    rw [hA]
    simp only [List.head?_cons, Option.some.injEq]
    exact digit_ne_of hc₀ (show isDigitC '-' = false by decide)
  have hplus : ¬ ((natChars n).head? = some '+') := by
    rw [hA]
    simp only [List.head?_cons, Option.some.injEq]
    exact digit_ne_of hc₀ (show isDigitC '+' = false by decide)
  have hInf : ¬ ((natChars n).take 8 = "Infinity".data) := by
    rw [hA]
    intro h
    rw [List.take_succ_cons,
      show ("Infinity".data : Chars) = 'I' :: "nfinity".data from rfl] at h
    injection h with h1 _
    exact digit_ne_of hc₀ (show isDigitC 'I' = false by decide) h1
  have htake : (natChars n).takeWhile isDigitC = natChars n :=
    takeWhile_all _ hdigits
  have hdrop : (natChars n).dropWhile isDigitC = [] :=
    dropWhile_all _ hdigits
  simp only [parseFloatJS, hws, hInf, if_false, hsign, hplus, or_self,
    htake, hdrop, List.head?_nil]
  norm_num
  rw [if_neg (natChars_ne_nil n)]
  norm_num [expPart, digitsVal_natChars n, digitsVal_nil]

theorem parseFloatJS_dec (a : ℕ) (ds : Chars) (hds : ∀ c ∈ ds, isDigitC c = true) :
    parseFloatJS (natChars a ++ '.' :: ds) =
      .val ((a : ℚ) + (digitsVal ds : ℚ) / 10 ^ ds.length) := by
  obtain ⟨c₀, t₀, hA⟩ := exists_cons_of_ne_nil (natChars_ne_nil a)
  have hc₀ : isDigitC c₀ = true := natChars_digits a c₀ (by rw [hA]; simp)
  have hdigits := natChars_digits a
  have hhead : (natChars a ++ '.' :: ds).head? = some c₀ := by
    rw [head?_append_left _ _ (natChars_ne_nil a), hA]
    rfl
  have hws : (natChars a ++ '.' :: ds).dropWhile isWSChar = natChars a ++ '.' :: ds :=
    dropWhile_head_false _ (fun c hc => by
      rw [hhead] at hc
      injection hc with hc
      rw [← hc]
      exact digit_not_ws hc₀)
  have hsign : ¬ ((natChars a ++ '.' :: ds).head? = some '-') := by
    rw [hhead]
    simp only [Option.some.injEq]
    exact digit_ne_of hc₀ (show isDigitC '-' = false by decide)
  have hplus : ¬ ((natChars a ++ '.' :: ds).head? = some '+') := by
    rw [hhead]
    simp only [Option.some.injEq]
    exact digit_ne_of hc₀ (show isDigitC '+' = false by decide)
  have hInf : ¬ ((natChars a ++ '.' :: ds).take 8 = "Infinity".data) := by
    intro h
    rw [hA, List.cons_append, List.take_succ_cons,
      show ("Infinity".data : Chars) = 'I' :: "nfinity".data from rfl] at h
    injection h with h1 _
    exact digit_ne_of hc₀ (show isDigitC 'I' = false by decide) h1
  have htake : (natChars a ++ '.' :: ds).takeWhile isDigitC = natChars a :=
    takeWhile_append_head _ _ hdigits (by
      intro c hc
      injection hc with hc
      rw [← hc]
      decide)
  have hdrop : (natChars a ++ '.' :: ds).dropWhile isDigitC = '.' :: ds :=
    dropWhile_append_head _ _ hdigits (by
      intro c hc
      injection hc with hc
      rw [← hc]
      decide)
  have htds : ds.takeWhile isDigitC = ds := takeWhile_all _ hds
  have hdds : ds.dropWhile isDigitC = [] := dropWhile_all _ hds
  simp only [parseFloatJS, hws, hInf, if_false, hsign, hplus, or_self,
    htake, hdrop, List.head?_cons, List.tail_cons, htds, hdds]
  norm_num
  rw [if_neg (by simp [natChars_ne_nil a])]
  norm_num [expPart, digitsVal_natChars a]

theorem parseCore_nat (n : ℕ) : parseCore (natChars n) = .val (n : ℚ) := by
  have hdigits := natChars_digits n
  have htake : (natChars n).takeWhile isDigitC = natChars n := takeWhile_all _ hdigits
  have hdrop : (natChars n).dropWhile isDigitC = [] := dropWhile_all _ hdigits
  have hmm : matchMixed (natChars n) = none := by
    simp [matchMixed, htake, hdrop]
  have hmf : matchFrac (natChars n) = none := by
    simp [matchFrac, htake, hdrop]
  have hmd : matchMixedDec (natChars n) = none := by
    simp [matchMixedDec, htake, hdrop]
  simp only [parseCore, hmm, hmf, hmd]
  exact parseFloatJS_digits n

theorem head?_not_of_all {p q : Char → Bool} (l : Chars) (hall : ∀ c ∈ l, p c = true)
    (himp : ∀ c, p c = true → q c = false) : ∀ c, l.head? = some c → q c = false :=
  fun c hc => himp c (hall c (mem_of_head? hc))

theorem parseCore_dec (a : ℕ) (ds : Chars) (hds : ∀ c ∈ ds, isDigitC c = true) :
    parseCore (natChars a ++ '.' :: ds) =
      .val ((a : ℚ) + (digitsVal ds : ℚ) / 10 ^ ds.length) := by
  have hdigits := natChars_digits a
  have hdd : isDigitC '.' = false := by decide
  have hdw : isWSChar '.' = false := by decide
  have hdslash : ¬ (('.' : Char) = '/') := by decide
  have htake : (natChars a ++ '.' :: ds).takeWhile isDigitC = natChars a :=
    takeWhile_append_head _ _ hdigits (by
      intro c hc
      injection hc with hc
      rw [← hc]
      exact hdd)
  have hdrop : (natChars a ++ '.' :: ds).dropWhile isDigitC = '.' :: ds :=
    dropWhile_append_head _ _ hdigits (by
      intro c hc
      injection hc with hc
      rw [← hc]
      exact hdd)
  have hmm : matchMixed (natChars a ++ '.' :: ds) = none := by
    simp [matchMixed, htake, hdrop, hdw, hdd, List.takeWhile_cons, List.dropWhile_cons, hdslash]
  have hmf : matchFrac (natChars a ++ '.' :: ds) = none := by
    simp [matchFrac, htake, hdrop, hdw, List.dropWhile_cons, hdslash]
  have hmd : matchMixedDec (natChars a ++ '.' :: ds) = none := by
    simp [matchMixedDec, htake, hdrop, hdw, List.takeWhile_cons]
  simp only [parseCore, hmm, hmf, hmd]
  exact parseFloatJS_dec a ds hds

theorem parseCore_frac (a b : ℕ) :
    parseCore (natChars a ++ '/' :: natChars b) = jdivNat a b := by
  have hdA := natChars_digits a
  have hdB := natChars_digits b
  have hsd : isDigitC '/' = false := by decide
  have hsw : isWSChar '/' = false := by decide
  have htake : (natChars a ++ '/' :: natChars b).takeWhile isDigitC = natChars a :=
    takeWhile_append_head _ _ hdA (by
      intro c hc
      injection hc with hc
      rw [← hc]
      exact hsd)
  have hdrop : (natChars a ++ '/' :: natChars b).dropWhile isDigitC = '/' :: natChars b :=
    dropWhile_append_head _ _ hdA (by
      intro c hc
      injection hc with hc
      rw [← hc]
      exact hsd)
  have hBws : (natChars b).dropWhile isWSChar = natChars b :=
    dropWhile_head_false _ (head?_not_of_all _ hdB (fun c h => digit_not_ws h))
  have hBtake : (natChars b).takeWhile isDigitC = natChars b := takeWhile_all _ hdB
  have hBdrop : (natChars b).dropWhile isDigitC = [] := dropWhile_all _ hdB
  have hmm : matchMixed (natChars a ++ '/' :: natChars b) = none := by
    simp [matchMixed, htake, hdrop, hsw, hsd, List.takeWhile_cons, List.dropWhile_cons,
      natChars_ne_nil]
  have hmf : matchFrac (natChars a ++ '/' :: natChars b) = some (a, b) := by
    simp [matchFrac, htake, hdrop, hsw, List.dropWhile_cons, hBws, hBtake, hBdrop,
      natChars_ne_nil, digitsVal_natChars]
  simp only [parseCore, hmm, hmf]

theorem parseCore_mixed (w a b : ℕ) :
    parseCore (natChars w ++ ' ' :: (natChars a ++ '/' :: natChars b)) =
      addWhole w (jdivNat a b) := by
  have hdW := natChars_digits w
  have hdA := natChars_digits a
  have hdB := natChars_digits b
  have hsd : isDigitC '/' = false := by decide
  have hsw : isWSChar '/' = false := by decide
  have hspd : isDigitC ' ' = false := by decide
  have hspw : isWSChar ' ' = true := by decide
  have htake : (natChars w ++ ' ' :: (natChars a ++ '/' :: natChars b)).takeWhile isDigitC
      = natChars w :=
    takeWhile_append_head _ _ hdW (by
      intro c hc
      injection hc with hc
      rw [← hc]
      exact hspd)
  have hdrop : (natChars w ++ ' ' :: (natChars a ++ '/' :: natChars b)).dropWhile isDigitC
      = ' ' :: (natChars a ++ '/' :: natChars b) :=
    dropWhile_append_head _ _ hdW (by
      intro c hc
      injection hc with hc
      rw [← hc]
      exact hspd)
  have hAheadws : ∀ c, (natChars a ++ '/' :: natChars b).head? = some c → isWSChar c = false := by
    intro c hc
    rw [head?_append_left _ _ (natChars_ne_nil a)] at hc
    exact digit_not_ws (hdA c (mem_of_head? hc))
  have htws : (natChars a ++ '/' :: natChars b).takeWhile isWSChar = [] :=
    takeWhile_head_false _ hAheadws
  have hdws : (natChars a ++ '/' :: natChars b).dropWhile isWSChar
      = natChars a ++ '/' :: natChars b :=
    dropWhile_head_false _ hAheadws
  have htakeA : (natChars a ++ '/' :: natChars b).takeWhile isDigitC = natChars a :=
    takeWhile_append_head _ _ hdA (by
      intro c hc
      injection hc with hc
      rw [← hc]
      exact hsd)
  have hdropA : (natChars a ++ '/' :: natChars b).dropWhile isDigitC = '/' :: natChars b :=
    dropWhile_append_head _ _ hdA (by
      intro c hc
      injection hc with hc
      rw [← hc]
      exact hsd)
  have hBws : (natChars b).dropWhile isWSChar = natChars b :=
    dropWhile_head_false _ (head?_not_of_all _ hdB (fun c h => digit_not_ws h))
  have hBtake : (natChars b).takeWhile isDigitC = natChars b := takeWhile_all _ hdB
  have hBdrop : (natChars b).dropWhile isDigitC = [] := dropWhile_all _ hdB
  have hmm : matchMixed (natChars w ++ ' ' :: (natChars a ++ '/' :: natChars b))
      = some (w, a, b) := by
    simp [matchMixed, htake, hdrop, List.takeWhile_cons, List.dropWhile_cons, hspw,
      htws, hdws, htakeA, hdropA, hsw, hBws, hBtake, hBdrop, natChars_ne_nil,
      digitsVal_natChars]
  simp only [parseCore, hmm]

theorem parseCore_wsTok (w : ℕ) (sp T : Chars) (hspne : sp ≠ [])
    (hsp : ∀ c ∈ sp, isWSChar c = true) (hTne : T ≠ [])
    (hT : ∀ c ∈ T, isDigitC c = true ∨ c = '.') :
    parseCore (natChars w ++ (sp ++ T)) = addWhole w (parseFloatJS T) := by
  have hdW := natChars_digits w
  have hThead : ∀ c, T.head? = some c → isWSChar c = false := by
    intro c hc
    rcases hT c (mem_of_head? hc) with h | h
    · exact digit_not_ws h
    · rw [h]; decide
  have hTheadslash : ¬ (T.head? = some '/') := by
    intro hc
    rcases hT '/' (mem_of_head? hc) with h | h
    · exact absurd h (by decide)
    · exact absurd h (by decide)
  have hwsd : ∀ {c : Char}, isWSChar c = true → isDigitC c = false := by
    intro c h
    simp only [isWSChar, decide_eq_true_eq] at h
    simp only [isDigitC, decide_eq_false_iff_not]
    omega
  have hspT : ∀ c, (sp ++ T).head? = some c → isDigitC c = false := by
    intro c hc
    rw [head?_append_left _ _ hspne] at hc
    exact hwsd (hsp c (mem_of_head? hc))
  have htake : ((natChars w ++ (sp ++ T)).takeWhile isDigitC) = natChars w :=
    takeWhile_append_head _ _ hdW (by
      intro c hc
      rw [head?_append_left _ _ hspne] at hc
      exact hwsd (hsp c (mem_of_head? hc)))
  have hdrop : ((natChars w ++ (sp ++ T)).dropWhile isDigitC) = sp ++ T :=
    dropWhile_append_head _ _ hdW (by
      intro c hc
      rw [head?_append_left _ _ hspne] at hc
      exact hwsd (hsp c (mem_of_head? hc)))
  have hw1 : (sp ++ T).takeWhile isWSChar = sp := takeWhile_append_head _ _ hsp hThead
  have hr2 : (sp ++ T).dropWhile isWSChar = T := dropWhile_append_head _ _ hsp hThead
  have hrT : ∀ c, (T.dropWhile isDigitC).head? = some c → c = '.' := by
    intro c hc
    have h1 : isDigitC c = false := dropWhile_head_not T c hc
    have h2 : c ∈ T := (List.dropWhile_sublist _).mem (mem_of_head? hc)
    rcases hT c h2 with h | h
    · rw [h1] at h
      simp at h
    · exact h
  have hrrdrop : (T.dropWhile isDigitC).dropWhile isWSChar = T.dropWhile isDigitC :=
    dropWhile_head_false _ (fun c hc => by rw [hrT c hc]; decide)
  have hrrhead : ¬ ((T.dropWhile isDigitC).head? = some '/') := by
    intro hc
    exact absurd (hrT '/' hc) (by decide)
  have hmm : matchMixed (natChars w ++ (sp ++ T)) = none := by
    simp [matchMixed, htake, hdrop, hw1, hr2, hrrdrop, hrrhead]
  have hmf : matchFrac (natChars w ++ (sp ++ T)) = none := by
    simp only [matchFrac, htake, hdrop]
    rw [dropWhile_append_head _ _ hsp hThead]
    simp [hTheadslash]
  have hmd : matchMixedDec (natChars w ++ (sp ++ T)) = some (w, T) := by
    simp only [matchMixedDec, htake, hdrop, hw1, hr2]
    rw [if_pos ⟨natChars_ne_nil w, hspne, hTne, hT⟩, digitsVal_natChars]
  simp only [parseCore, hmm, hmf, hmd]

/-! ### parseQuantity on rendered shapes -/

theorem digit_plain {c : Char} (h : isDigitC c = true) : c.toNat < 0xBC := by
  simp only [isDigitC, decide_eq_true_eq] at h
  omega

theorem parseQuantity_plain (l : Chars) (hne : l ≠ [])
    (hplain : ∀ c ∈ l, c.toNat < 0xBC)
    (hhead : ∀ c, l.head? = some c → isWSChar c = false)
    (hlast : ∀ c, l.getLast? = some c → isWSChar c = false) :
    parseQuantity l = parseCore l := by
  simp only [parseQuantity]
  rw [trimC_eq_self l hhead hlast, if_neg hne, substFracs_plain l hplain,
    trimC_eq_self l hhead hlast]

theorem parseQuantity_nat (n : ℕ) : parseQuantity (natChars n) = .val (n : ℚ) := by
  rw [parseQuantity_plain _ (natChars_ne_nil n)
    (fun c hc => digit_plain (natChars_digits n c hc))
    (fun c hc => digit_not_ws (natChars_digits n c (mem_of_head? hc)))
    (fun c hc => digit_not_ws (natChars_digits n c (List.mem_of_mem_getLast? hc)))]
  exact parseCore_nat n

theorem parseQuantity_dec (a : ℕ) (ds : Chars) (hne : ds ≠ [])
    (hds : ∀ c ∈ ds, isDigitC c = true) :
    parseQuantity (natChars a ++ '.' :: ds) =
      .val ((a : ℚ) + (digitsVal ds : ℚ) / 10 ^ ds.length) := by
  rw [parseQuantity_plain _ (by simp [natChars_ne_nil a])
    ?plain ?hd ?lst]
  · exact parseCore_dec a ds hds
  case plain =>
    intro c hc
    rcases List.mem_append.mp hc with h | h
    · exact digit_plain (natChars_digits a c h)
    · rcases List.mem_cons.mp h with rfl | h
      · decide
      · exact digit_plain (hds c h)
  case hd =>
    intro c hc
    rw [head?_append_left _ _ (natChars_ne_nil a)] at hc
    exact digit_not_ws (natChars_digits a c (mem_of_head? hc))
  case lst =>
    intro c hc
    rw [getLast?_append_right _ _ (by simp)] at hc
    rw [show ('.' :: ds : Chars) = ['.'] ++ ds from rfl,
      getLast?_append_right _ _ hne] at hc
    exact digit_not_ws (hds c (List.mem_of_mem_getLast? hc))

theorem parseQuantity_frac (a b : ℕ) :
    parseQuantity (natChars a ++ '/' :: natChars b) = jdivNat a b := by
  rw [parseQuantity_plain _ (by simp [natChars_ne_nil a]) ?plain ?hd ?lst]
  · exact parseCore_frac a b
  case plain =>
    intro c hc
    rcases List.mem_append.mp hc with h | h
    · exact digit_plain (natChars_digits a c h)
    · rcases List.mem_cons.mp h with rfl | h
      · decide
      · exact digit_plain (natChars_digits b c h)
  case hd =>
    intro c hc
    rw [head?_append_left _ _ (natChars_ne_nil a)] at hc
    exact digit_not_ws (natChars_digits a c (mem_of_head? hc))
  case lst =>
    intro c hc
    rw [getLast?_append_right _ _ (by simp)] at hc
    rw [show ('/' :: natChars b : Chars) = ['/'] ++ natChars b from rfl,
      getLast?_append_right _ _ (natChars_ne_nil b)] at hc
    exact digit_not_ws (natChars_digits b c (List.mem_of_mem_getLast? hc))

theorem parseQuantity_mixed (w a b : ℕ) :
    parseQuantity (natChars w ++ ' ' :: (natChars a ++ '/' :: natChars b)) =
      addWhole w (jdivNat a b) := by
  rw [parseQuantity_plain _ (by simp [natChars_ne_nil w]) ?plain ?hd ?lst]
  · exact parseCore_mixed w a b
  case plain =>
    intro c hc
    rcases List.mem_append.mp hc with h | h
    · exact digit_plain (natChars_digits w c h)
    · rcases List.mem_cons.mp h with rfl | h
      · decide
      · rcases List.mem_append.mp h with h | h
        · exact digit_plain (natChars_digits a c h)
        · rcases List.mem_cons.mp h with rfl | h
          · decide
          · exact digit_plain (natChars_digits b c h)
  case hd =>
    intro c hc
    rw [head?_append_left _ _ (natChars_ne_nil w)] at hc
    exact digit_not_ws (natChars_digits w c (mem_of_head? hc))
  case lst =>
    intro c hc
    rw [getLast?_append_right _ _ (by simp)] at hc
    rw [show (' ' :: (natChars a ++ '/' :: natChars b) : Chars)
        = [' '] ++ (natChars a ++ '/' :: natChars b) from rfl,
      getLast?_append_right _ _ (by simp [natChars_ne_nil a]),
      getLast?_append_right _ _ (by simp),
      show ('/' :: natChars b : Chars) = ['/'] ++ natChars b from rfl,
      getLast?_append_right _ _ (natChars_ne_nil b)] at hc
    exact digit_not_ws (natChars_digits b c (List.mem_of_mem_getLast? hc))

theorem parseQuantity_glyphTok (w : ℕ) (G : Char) (D : Chars)
    (hmem : (G, D) ∈ substTable) :
    parseQuantity (natChars w ++ [' ', G]) = addWhole w (parseFloatJS D) := by
  have hGws : isWSChar G = false := by
    have h : ∀ e ∈ substTable, isWSChar e.1 = false := by decide
    simpa using h (G, D) hmem
  have hDne : D ≠ [] := by
    have h : ∀ e ∈ substTable, e.2 ≠ [] := by decide
    simpa using h (G, D) hmem
  have hDds : ∀ c ∈ D, isDigitC c = true ∨ c = '.' := by
    have h : ∀ e ∈ substTable, ∀ c ∈ e.2, isDigitC c = true ∨ c = '.' := by decide
    simpa using h (G, D) hmem
  have htr1 : trimC (natChars w ++ [' ', G]) = natChars w ++ [' ', G] := by
    apply trimC_eq_self
    · intro c hc
      rw [head?_append_left _ _ (natChars_ne_nil w)] at hc
      exact digit_not_ws (natChars_digits w c (mem_of_head? hc))
    · intro c hc
      rw [getLast?_append_right _ _ (by simp)] at hc
      simp only [List.getLast?_cons_cons, List.getLast?_singleton, Option.some.injEq] at hc
      rw [← hc]
      exact hGws
  have hsplit : natChars w ++ [' ', G] = (natChars w ++ [' ']) ++ [G] := by
    simp
  have hsub : substFracs (natChars w ++ [' ', G]) = (natChars w ++ [' ']) ++ ' ' :: D := by
    rw [hsplit]
    apply substFracs_glyph _ _ _ hmem
    intro c hc
    rcases List.mem_append.mp hc with h | h
    · exact digit_plain (natChars_digits w c h)
    · rcases List.mem_cons.mp h with rfl | h
      · decide
      · simp at h
  have hshape : ((natChars w ++ [' ']) ++ ' ' :: D) = natChars w ++ ([' ', ' '] ++ D) := by
    simp
  have htr2 : trimC (natChars w ++ ([' ', ' '] ++ D)) = natChars w ++ ([' ', ' '] ++ D) := by
    apply trimC_eq_self
    · intro c hc
      rw [head?_append_left _ _ (natChars_ne_nil w)] at hc
      exact digit_not_ws (natChars_digits w c (mem_of_head? hc))
    · intro c hc
      rw [getLast?_append_right _ _ (by simp [hDne]),
        getLast?_append_right _ _ hDne] at hc
      rcases hDds c (List.mem_of_mem_getLast? hc) with h | h
      · exact digit_not_ws h
      · rw [h]
        decide
  simp only [parseQuantity]
  rw [htr1, if_neg (by simp [natChars_ne_nil w]), hsub, hshape, htr2]
  exact parseCore_wsTok w [' ', ' '] D (by simp) (by decide) hDne hDds

/-! ### The formatter on table hits, and the formatter against its design text -/

theorem format_table_hit (f : ℚ) (g : Chars) (h0 : 0 < f) (h1 : f < 1)
    (hfind : fractionTable.find? (fun e => decide (|f - e.1| < 1/25)) = some (f, g)) :
    ∀ w : ℕ, formatQuantity ((w : ℚ) + f) =
      if w = 0 then g else natChars w ++ ' ' :: g := by
  intro w
  have hpos : ¬ ((w : ℚ) + f ≤ 0) := by
    push_neg
    positivity
  have hfloor : ⌊(w : ℚ) + f⌋ = (w : ℤ) := by
    rw [add_comm, Int.floor_add_nat,
      Int.floor_eq_zero_iff.mpr (Set.mem_Ico.mpr ⟨le_of_lt h0, h1⟩), zero_add]
  simp only [formatQuantity, if_neg hpos, hfloor, Int.toNat_natCast]
  have hfrac : (w : ℚ) + f - (w : ℚ) = f := by ring
  simp only [hfrac, hfind]

theorem firstHit_eq_find? (x : ℚ) :
    ∀ ts : List (ℚ × Chars),
      firstHit x ts = (ts.find? fun e => decide (|x - e.1| < 1/25)).map Prod.snd := by
  intro ts
  induction ts with
  | nil => rfl
  | cons e t ih =>
    simp only [firstHit, List.find?_cons]
    by_cases h : |x - e.1| < 1/25
    · rw [if_pos h, decide_eq_true h]
      rfl
    · rw [if_neg h, decide_eq_false h]
      exact ih

theorem formatQuantity_eq_spec (q : ℚ) : formatQuantity q = formatQuantitySpec q := by
  simp only [formatQuantity, formatQuantitySpec, firstHit_eq_find?]
  by_cases h : q ≤ 0
  · simp [h]
  · simp only [if_neg h]
    rw [show
      ([(1/8, ['⅛']), (1/6, "1/6".data), (1/4, ['¼']), (1/3, ['⅓']),
        (3/8, ['⅜']), (1/2, ['½']), (5/8, ['⅝']), (2/3, ['⅔']),
        (3/4, ['¾']), (5/6, "5/6".data), (7/8, ['⅞'])] : List (ℚ × Chars))
      = fractionTable from rfl]
    cases hf : fractionTable.find?
        (fun e => decide (|q - ((⌊q⌋).toNat : ℚ) - e.1| < 1/25)) with
    | none => simp
    | some e => simp

/-! ### The claims -/

/-- Claim C3: the formatter returns "0" on non-positive input and otherwise
follows exactly the table-scan / round-down / round-up / two-decimal scheme
of the design text (proved as a refinement of `formatQuantitySpec`, the
formatter transcribed from that text), with the five concrete examples
format(0.5) = "½", format(1.33) = "1 ⅓", format(2.0) = "2",
format(0.98) = "1" and format(0) = "0". -/
theorem claim_C3 :
    (∀ q : ℚ, formatQuantity q = formatQuantitySpec q) ∧
    formatQuantity (1/2) = "½".data ∧
    formatQuantity (133/100) = "1 ⅓".data ∧
    formatQuantity 2 = "2".data ∧
    formatQuantity (98/100) = "1".data ∧
    formatQuantity 0 = "0".data :=
  ⟨formatQuantity_eq_spec, by decide, by decide, by decide, by decide, by decide⟩

/-- Claim C2 (amended): the exclusion filter excludes an item exactly when
its normalized form is a stored exclusion entry OR a property name inherited
from `Object.prototype` (whose values are all truthy), or its ingredient key
matches the ingredient key of some stored entry with both keys non-empty; an
exclusion line normalizing to the legacy prototype accessor name is never
stored as an own key (the assignment through the inherited setter is a
no-op), so it never participates in the key tier; the two concrete examples
from the design text still hold, and the never-stored entry is observable:
exclusion line "__proto__" fails to exclude "2 cups __proto__" even though
their ingredient keys agree. -/
theorem claim_C2 :
    (∀ (exs : List Chars) (n : Chars),
      isExcluded exs n = true ↔
        (n ∈ exs ∨ n ∈ protoProps) ∨
        ∃ e ∈ exs, ingredientKey n ≠ [] ∧ ingredientKey e ≠ [] ∧
          ingredientKey n = ingredientKey e) ∧
    (∀ t : Chars, "__proto__".data ∉ parseExclusions t) ∧
    buildShoppingList "2 cups flour\n1 egg".data "2 Cups Flour".data = ["1 egg".data] ∧
    buildShoppingList "3 tbsp butter".data "1 tbsp butter".data = [] ∧
    buildShoppingList "2 cups __proto__".data "__proto__".data
      = ["2 cups __proto__".data] := by
  refine ⟨?_, ?_, by decide, by decide, by decide⟩
  · intro exs n
    unfold isExcluded
    by_cases hmem : n ∈ exs ∨ n ∈ protoProps
    · simp [hmem]
    · simp [hmem, List.any_eq_true]
  · intro t hmem
    unfold parseExclusions at hmem
    by_cases ht : trimC t = []
    · simp [ht] at hmem
    · rw [if_neg ht, List.mem_filterMap] at hmem
      obtain ⟨l, _, hsome⟩ := hmem
      by_cases he : trimC l = []
      · simp [he] at hsome
      · by_cases hn : normalizeItem (trimC l) = "__proto__".data
        · simp [he, hn] at hsome
        · simp [he, hn] at hsome

/-- Claim C2, counterexample to the original statement: with no exclusions
given at all, an item normalizing to "constructor" is nevertheless excluded —
the property get `excludeSet[normalized]` finds the inherited truthy
`Object.prototype.constructor` — so the "only if" direction of the claimed
characterization fails, and the recipe line "constructor" disappears from the
list. -/
theorem claim_C2_counterexample :
    isExcluded [] "constructor".data = true ∧
    ¬ ("constructor".data ∈ ([] : List Chars) ∨
        ∃ e ∈ ([] : List Chars), ingredientKey "constructor".data ≠ [] ∧
          ingredientKey e ≠ [] ∧
          ingredientKey "constructor".data = ingredientKey e) ∧
    buildShoppingList "constructor\n1 egg".data [] = ["1 egg".data] := by
  refine ⟨by decide, ?_, by decide⟩
  rintro (h | ⟨e, he, -⟩)
  · exact List.not_mem_nil _ h
  · exact List.not_mem_nil _ he

/-! ### Counting glyph occurrences across the substitution -/

theorem count_replaceFirstC_self (g : Char) (rep : Chars) (hg : g ∉ rep) :
    ∀ l : Chars, List.count g (replaceFirstC g rep l)
      = List.count g l - (if g ∈ l then 1 else 0) := by
  intro l
  induction l with
  | nil => simp [replaceFirstC]
  | cons c t ih =>
    by_cases hc : c = g
    · subst hc
      have hstep : replaceFirstC c rep (c :: t) = rep ++ t := by
        simp [replaceFirstC]
      rw [hstep, List.count_append, List.count_eq_zero.mpr hg, List.count_cons_self]
      simp
    · have hbeq : (c == g) = false := by
        simp [hc]
      have hmem : g ∈ c :: t ↔ g ∈ t := by
        simp only [List.mem_cons]
        constructor
        · rintro (rfl | h)
          · exact absurd rfl hc
          · exact h
        · exact Or.inr
      simp only [replaceFirstC, if_neg hc]
      rw [List.count_cons, List.count_cons, hbeq, ih]
      by_cases hm : g ∈ t
      · simp [hm, hmem]
      · simp [hm, hmem]

theorem count_replaceFirstC_other (c g : Char) (rep : Chars) (hne : c ≠ g) (hrep : c ∉ rep) :
    ∀ l : Chars, List.count c (replaceFirstC g rep l) = List.count c l := by
  intro l
  induction l with
  | nil => rfl
  | cons x t ih =>
    by_cases hx : x = g
    · subst hx
      have hstep : replaceFirstC x rep (x :: t) = rep ++ t := by
        simp [replaceFirstC]
      rw [hstep, List.count_append, List.count_eq_zero.mpr hrep, List.count_cons,
        (by simp only [beq_eq_false_iff_ne, ne_eq]; exact fun h => hne h.symm :
          (x == c) = false)]
      simp
    · simp only [replaceFirstC, if_neg hx]
      rw [List.count_cons, List.count_cons, ih]

theorem count_foldl_subst_other :
    ∀ (ts : List (Char × Chars)) (l : Chars) (c : Char),
      (∀ e ∈ ts, c ≠ e.1 ∧ c ∉ ' ' :: e.2) →
      List.count c (ts.foldl (fun s e => replaceFirstC e.1 (' ' :: e.2) s) l)
        = List.count c l := by
  intro ts
  induction ts with
  | nil => intro l c _; rfl
  | cons e₀ ts ih =>
    intro l c h
    simp only [List.foldl_cons]
    rw [ih _ c (fun e he => h e (by simp [he])),
      count_replaceFirstC_other c e₀.1 (' ' :: e₀.2) (h e₀ (by simp)).1
        (h e₀ (by simp)).2]

theorem count_foldl_subst :
    ∀ (ts : List (Char × Chars)) (c : Char) (D : Chars), (c, D) ∈ ts →
      (ts.map Prod.fst).Nodup →
      (∀ e ∈ ts, ∀ x ∈ (' ' :: e.2 : Chars), x.toNat < 0xBC) →
      (∀ e ∈ ts, 0xBC ≤ e.1.toNat) →
      ∀ l, List.count c (ts.foldl (fun s e => replaceFirstC e.1 (' ' :: e.2) s) l)
        = List.count c l - (if c ∈ l then 1 else 0) := by
  intro ts
  induction ts with
  | nil => intro c D h; simp at h
  | cons e₀ ts ih =>
    rcases e₀ with ⟨g₀, d₀⟩
    intro c D hmem hnd hreps hglyphs l
    have hnd2 : g₀ ∉ ts.map Prod.fst ∧ (ts.map Prod.fst).Nodup := by
      rw [List.map_cons, List.nodup_cons] at hnd
      exact hnd
    have hcBC : 0xBC ≤ c.toNat := by
      have := hglyphs (c, D) hmem
      simpa using this
    rcases List.mem_cons.mp hmem with heq | htail
    · injection heq with h1 h2
      subst h1
      subst h2
      simp only [List.foldl_cons]
      have hrep : c ∉ (' ' :: D : Chars) := fun hm => by
        have := hreps (c, D) (by simp) c hm
        omega
      rw [count_foldl_subst_other ts _ c ?hother,
        count_replaceFirstC_self c (' ' :: D) hrep l]
      case hother =>
        intro e he
        constructor
        · intro hce
          have h1 := hglyphs e (by simp [he])
          have h2 : c ∈ ts.map Prod.fst := by
            rw [hce]
            exact List.mem_map_of_mem Prod.fst he
          exact hnd2.1 h2
        · intro hm
          have := hreps e (by simp [he]) c hm
          omega
    · have hgne : c ≠ g₀ := by
        intro h
        apply hnd2.1
        rw [← h]
        exact List.mem_map_of_mem Prod.fst htail
      have hrep0 : c ∉ (' ' :: d₀ : Chars) := fun hm => by
        have := hreps (g₀, d₀) (by simp) c hm
        omega
      simp only [List.foldl_cons]
      have hstep := count_replaceFirstC_other c g₀ (' ' :: d₀) hgne hrep0 l
      have hmemiff : c ∈ replaceFirstC g₀ (' ' :: d₀) l ↔ c ∈ l := by
        rw [← List.count_pos_iff, ← List.count_pos_iff, hstep]
      rw [ih c D htail hnd2.2 (fun e he => hreps e (by simp [he]))
        (fun e he => hglyphs e (by simp [he])), hstep]
      by_cases hm : c ∈ l
      · rw [if_pos hm, if_pos (hmemiff.mpr hm)]
      · rw [if_neg hm, if_neg (fun h => hm (hmemiff.mp h))]

/-- Claim C6 (amended): `ingredientKey` strips from the start exactly one
phrase of ONE or more digit/space/slash/dot characters followed by a unit
word and trailing whitespace; a string whose first character is not in that
class — in particular one that begins directly with a unit word, such as
"cups flour" — is returned unchanged, as is a string with no such phrase. -/
theorem claim_C6 :
    (∀ (l : Chars) (c : Char), l.head? = some c → isUnitClassChar c = false →
      ingredientKey l = l) ∧
    ingredientKey "cups flour".data = "cups flour".data ∧
    ingredientKey "2 cups flour".data = "flour".data ∧
    ingredientKey "1 egg".data = "1 egg".data := by
  refine ⟨?_, by decide, by decide, by decide⟩
  intro l c hc hcls
  unfold ingredientKey
  rw [takeWhile_head_false _ (fun c' hc' => by
    rw [hc] at hc'
    injection hc' with h
    rw [← h]
    exact hcls)]
  simp

/-- Claim C6, counterexample: the claim asserts that "cups flour" has its
unit stripped, yielding "flour"; the regex requires at least one leading
quantity character, so the string is returned unchanged. -/
theorem claim_C6_counterexample :
    ingredientKey "cups flour".data = "cups flour".data ∧
    "cups flour".data ≠ "flour".data := by
  exact ⟨by decide, by decide⟩

/-- Claim C6, witness for the amended statement at the input "egg". -/
theorem claim_C6_witness :
    ("egg".data.head? = some 'e') ∧ isUnitClassChar 'e' = false ∧
    ingredientKey "egg".data = "egg".data :=
  ⟨rfl, by decide, claim_C6.1 "egg".data 'e' rfl (by decide)⟩

/-- Claim C8 (amended): the unicode-fraction substitution step replaces, for
each of the 15 glyphs, only the FIRST occurrence of that glyph (the count of
a table glyph decreases by exactly one when it occurs, and no replacement
re-introduces a glyph); consequently parse("½") = 0.5 and
parse("1 ½") = 1.5 still hold. -/
theorem claim_C8 :
    (∀ (c : Char) (D : Chars) (l : Chars), (c, D) ∈ substTable →
      List.count c (substFracs l) = List.count c l - (if c ∈ l then 1 else 0)) ∧
    parseQuantity "½".data = JSNum.val (1/2) ∧
    parseQuantity "1 ½".data = JSNum.val (3/2) := by
  refine ⟨?_, by decide, by decide⟩
  intro c D l hmem
  exact count_foldl_subst substTable c D hmem (by decide) (by decide) (by decide) l

/-- Claim C8, counterexample: on "½½" the substitution step replaces only the
first "½", leaving " 0.5½"; a glyph occurrence survives, so the step does
not replace every occurrence. -/
theorem claim_C8_counterexample :
    substFracs "½½".data = " 0.5½".data ∧ '½' ∈ substFracs "½½".data := by
  exact ⟨by decide, by decide⟩

/-- Claim C8, witness: the count equation of the amended claim evaluated on
the concrete input "½½". -/
theorem claim_C8_witness :
    (('½', "0.5".data) ∈ substTable) ∧
    List.count '½' (substFracs "½½".data)
      = List.count '½' "½½".data - (if '½' ∈ "½½".data then 1 else 0) :=
  ⟨by decide, claim_C8.1 '½' "0.5".data "½½".data (by decide)⟩

/-- Claim C9 (amended): a fraction or mixed-number input whose denominator is
zero and whose fraction numerator is NON-ZERO parses, unguarded, to
infinity; a zero numerator over a zero denominator instead yields the NaN
sentinel (see the counterexample). -/
theorem claim_C9 :
    (∀ n : ℕ, 0 < n → parseQuantity (natChars n ++ '/' :: natChars 0) = JSNum.inf) ∧
    (∀ w n : ℕ, 0 < n →
      parseQuantity (natChars w ++ ' ' :: (natChars n ++ '/' :: natChars 0)) = JSNum.inf) := by
  constructor
  · intro n hn
    rw [parseQuantity_frac n 0]
    simp [jdivNat, Nat.pos_iff_ne_zero.mp hn]
  · intro w n hn
    rw [parseQuantity_mixed w n 0]
    simp [jdivNat, addWhole, Nat.pos_iff_ne_zero.mp hn]

/-- Claim C9, counterexample: "0/0" is a fraction input with zero denominator
but parses to the NaN sentinel, not to infinity as the claim states for
every zero-denominator fraction. -/
theorem claim_C9_counterexample :
    parseQuantity "0/0".data = JSNum.nan ∧ JSNum.nan ≠ JSNum.inf := by
  exact ⟨by decide, by decide⟩

/-- Claim C9, witness: the amended claim applied at "1/0" and "2 1/0". -/
theorem claim_C9_witness :
    parseQuantity (natChars 1 ++ '/' :: natChars 0) = JSNum.inf ∧
    parseQuantity (natChars 2 ++ ' ' :: (natChars 1 ++ '/' :: natChars 0)) = JSNum.inf :=
  ⟨claim_C9.1 1 (by decide), claim_C9.2 2 1 (by decide)⟩

/-! ### Signs of parse results -/

theorem not_mem_foldl_subst (c : Char) :
    ∀ (ts : List (Char × Chars)) (l : Chars), c ∉ l →
      (∀ e ∈ ts, c ∉ (' ' :: e.2 : Chars)) →
      c ∉ ts.foldl (fun s e => replaceFirstC e.1 (' ' :: e.2) s) l := by
  intro ts
  induction ts with
  | nil => intro l hl _; exact hl
  | cons e₀ ts ih =>
    intro l hl hts
    simp only [List.foldl_cons]
    apply ih _ ?step (fun e he => hts e (by simp [he]))
    case step =>
      intro hm
      rcases mem_replaceFirstC _ hm with h | h
      · exact hl h
      · exact hts e₀ (by simp) h

theorem addWhole_nonneg (w : ℕ) (n : JSNum) (h : nonnegResult n) :
    nonnegResult (addWhole w n) := by
  cases n with
  | val q =>
    simp only [nonnegResult, addWhole] at h ⊢
    positivity
  | inf => simp only [addWhole, nonnegResult]
  | ninf => simp only [nonnegResult] at h
  | nan => simp only [addWhole, nonnegResult]

theorem jdivNat_nonneg (a b : ℕ) : nonnegResult (jdivNat a b) := by
  unfold jdivNat
  by_cases hb : b = 0
  · by_cases ha : a = 0 <;> simp [ha, hb, nonnegResult]
  · simp only [if_neg hb, nonnegResult]
    positivity

theorem parseFloatJS_nonneg (l : Chars) (hl : '-' ∉ l) :
    nonnegResult (parseFloatJS l) := by
  have hsign : ¬ ((l.dropWhile isWSChar).head? = some '-') :=
    fun h => hl ((List.dropWhile_sublist _).mem (mem_of_head? h))
  simp only [parseFloatJS, decide_eq_false hsign, Bool.false_eq_true, if_false]
  repeat' split
  all_goals simp only [nonnegResult]
  all_goals first
  | trivial
  | positivity

theorem parseCore_nonneg (s : Chars) (hs : '-' ∉ s) : nonnegResult (parseCore s) := by
  cases hmm : matchMixed s with
  | some t =>
    rcases t with ⟨a, b, c⟩
    simp only [parseCore, hmm]
    exact addWhole_nonneg _ _ (jdivNat_nonneg _ _)
  | none =>
    cases hmf : matchFrac s with
    | some t =>
      rcases t with ⟨b, c⟩
      simp only [parseCore, hmm, hmf]
      exact jdivNat_nonneg _ _
    | none =>
      cases hmd : matchMixedDec s with
      | some t =>
        rcases t with ⟨w, tok⟩
        simp only [parseCore, hmm, hmf, hmd]
        apply addWhole_nonneg
        apply parseFloatJS_nonneg
        simp only [matchMixedDec] at hmd
        split at hmd
        case isTrue hcond =>
          injection hmd with hmd2
          injection hmd2 with _ htok
          intro hm
          rw [← htok] at hm
          rcases hcond.2.2.2 '-' hm with h | h
          · exact absurd h (by decide)
          · exact absurd h (by decide)
        case isFalse => simp at hmd
      | none =>
        simp only [parseCore, hmm, hmf, hmd]
        exact parseFloatJS_nonneg s hs

/-- Claim C5 (amended): for every input that does not contain the character
'-', parseQuantity returns a non-negative value, infinity, or the NaN
sentinel — never a negative value; the plain floating-point fallback DOES
return negative values for inputs with a leading minus sign (see the
counterexample parse("-3") = -3). -/
theorem tab_nominus : ∀ e ∈ substTable, '-' ∉ (' ' :: e.2 : Chars) := by decide

theorem parseQuantity_eq (l : Chars) :
    parseQuantity l =
      if trimC l = [] then JSNum.nan else parseCore (trimC (substFracs (trimC l))) := rfl

theorem parseQuantity_eq2 (l : Chars) (h : ¬ trimC l = []) :
    parseQuantity l = parseCore (trimC (substFracs (trimC l))) :=
  Eq.trans (parseQuantity_eq l) (if_neg h)

theorem claim_C5 : ∀ l : Chars, '-' ∉ l → nonnegResult (parseQuantity l) := by
  intro l hl
  by_cases h : trimC l = []
  · rw [parseQuantity_eq, if_pos h]
    simp only [nonnegResult]
  · rw [parseQuantity_eq2 l h]
    have hnm : '-' ∉ trimC (substFracs (trimC l)) := fun hm =>
      not_mem_foldl_subst '-' substTable (trimC l)
        (fun hx => hl (mem_trimC hx)) tab_nominus (mem_trimC hm)
    exact parseCore_nonneg (trimC (substFracs (trimC l))) hnm

/-- Claim C5, counterexample: the plain floating-point fallback parses "-3"
to the negative value -3, so parseQuantity is not non-negative on every
input. -/
theorem claim_C5_counterexample :
    parseQuantity "-3".data = JSNum.val (-3) ∧ ((-3 : ℚ) < 0) := by
  exact ⟨by decide, by decide⟩

/-- Claim C5, witness: the amended claim applied at the input "2 1/2". -/
theorem claim_C5_witness :
    ('-' ∉ "2 1/2".data) ∧ nonnegResult (parseQuantity "2 1/2".data) :=
  ⟨by decide, claim_C5 "2 1/2".data (by decide)⟩

/-! ### The line scaler -/

theorem processLine_eq (r : ℚ) (raw : Chars) :
    processLine r raw =
      if trimC raw = [] then []
      else
        match matchQty (trimC raw) with
        | some (tok, rest) =>
          match parseQuantity tok with
          | .nan => trimC raw
          | q => formatJS (mulJS q r) ++ ' ' :: rest
        | none => trimC raw := rfl

/-- Claim C4 (amended): each line is trimmed before processing; for every
line that is non-blank after trimming, if the trimmed line matches the
leading-quantity pattern and the captured token parses to a number, the
output is the re-formatted scaled quantity followed by the captured
remainder, and otherwise the output is the TRIMMED line (not the original
line verbatim); with ratio 2 the line "1/2 cup sugar" yields
"1 cup sugar". -/
theorem claim_C4 :
    (∀ (r : ℚ) (raw : Chars), trimC raw ≠ [] → lineSpec r raw) ∧
    processLine 2 "1/2 cup sugar".data = "1 cup sugar".data := by
  refine ⟨?_, by decide⟩
  intro r raw hne
  unfold lineSpec
  refine ⟨?_, ?_⟩
  · intro hnone
    rw [processLine_eq, if_neg hne]
    simp only [hnone]
  · intro tok rest hsome
    refine ⟨?_, ?_⟩
    · intro hnan
      rw [processLine_eq, if_neg hne]
      simp only [hsome, hnan]
    · intro hnn
      rw [processLine_eq, if_neg hne]
      cases hq : parseQuantity tok with
      | val q => simp only [hsome, hq]
      | inf => simp only [hsome, hq]
      | ninf => simp only [hsome, hq]
      | nan => exact absurd hq hnn

/-- Claim C4, counterexample: a non-blank line with surrounding whitespace
that does not match the pattern is NOT passed through unchanged — the code
pushes its trimmed form. -/
theorem claim_C4_counterexample :
    processLine 2 "  salt  ".data ≠ "  salt  ".data := by decide

/-- Claim C4, witness: the amended per-line contract at the line "salt". -/
theorem claim_C4_witness :
    trimC "salt".data ≠ [] ∧ lineSpec 2 "salt".data :=
  ⟨by decide, claim_C4.1 2 "salt".data (by decide)⟩

theorem findSome?_some {α β : Type} {f : α → Option β} :
    ∀ {l : List α} {b : β}, l.findSome? f = some b → ∃ a ∈ l, f a = some b := by
  intro l
  induction l with
  | nil => intro b h; simp [List.findSome?_nil] at h
  | cons a t ih =>
    intro b h
    rw [List.findSome?_cons] at h
    cases hfa : f a with
    | some c =>
      simp only [hfa] at h
      exact ⟨a, by simp, by rw [hfa, h]⟩
    | none =>
      simp only [hfa] at h
      obtain ⟨x, hx, hfx⟩ := ih h
      exact ⟨x, by simp [hx], hfx⟩

theorem splitNL_ne_nil : ∀ l : Chars, splitNL l ≠ [] := by
  intro l
  induction l with
  | nil => simp [splitNL]
  | cons c t ih =>
    simp only [splitNL]
    cases h : splitNL t with
    | nil => exact absurd h ih
    | cons hd rs =>
      by_cases hc : c = '\n' <;> simp [hc]

theorem mem_splitNL_no_nl : ∀ (l : Chars) (p : Chars), p ∈ splitNL l → '\n' ∉ p := by
  intro l
  induction l with
  | nil =>
    intro p hp
    simp only [splitNL, List.mem_singleton] at hp
    simp [hp]
  | cons c t ih =>
    intro p hp
    simp only [splitNL] at hp
    cases h : splitNL t with
    | nil => exact absurd h (splitNL_ne_nil t)
    | cons hd rs =>
      simp only [h] at hp
      by_cases hc : c = '\n'
      · rw [if_pos hc] at hp
        rcases List.mem_cons.mp hp with rfl | hp2
        · simp
        · exact ih p (by rw [h]; exact hp2)
      · rw [if_neg hc] at hp
        rcases List.mem_cons.mp hp with rfl | hp2
        · intro hm
          rcases List.mem_cons.mp hm with h1 | h1
          · exact hc h1.symm
          · exact ih hd (by rw [h]; simp) h1
        · exact ih p (by rw [h]; simp [hp2])

theorem splitNL_single : ∀ l : Chars, '\n' ∉ l → splitNL l = [l] := by
  intro l
  induction l with
  | nil => intro _; rfl
  | cons c t ih =>
    intro h
    have hc : ¬ (c = '\n') := fun hc => h (by simp [hc])
    simp only [splitNL, ih (fun hm => h (by simp [hm])), if_neg hc]

theorem splitNL_append_nl (rest : Chars) :
    ∀ l : Chars, '\n' ∉ l → splitNL (l ++ '\n' :: rest) = l :: splitNL rest := by
  intro l
  induction l with
  | nil =>
    intro _
    simp only [List.nil_append, splitNL]
    cases h : splitNL rest with
    | nil => exact absurd h (splitNL_ne_nil rest)
    | cons hd rs => simp
  | cons c t ih =>
    intro h
    have hc : ¬ (c = '\n') := fun hc => h (by simp [hc])
    simp only [List.cons_append, splitNL, List.append_eq,
      ih (fun hm => h (by simp [hm])), if_neg hc]

theorem splitNL_joinNL :
    ∀ ls : List Chars, ls ≠ [] → (∀ p ∈ ls, '\n' ∉ p) → splitNL (joinNL ls) = ls := by
  intro ls
  induction ls with
  | nil => intro h; exact absurd rfl h
  | cons l ls ih =>
    intro _ hnl
    cases ls with
    | nil => exact splitNL_single l (hnl l (by simp))
    | cons l2 ls2 =>
      rw [show joinNL (l :: l2 :: ls2) = l ++ '\n' :: joinNL (l2 :: ls2) from rfl,
        splitNL_append_nl _ l (hnl l (by simp)),
        ih (by simp) (fun p hp => hnl p (by simp [hp]))]

theorem formatQuantity_eq (q : ℚ) :
    formatQuantity q =
      if q ≤ 0 then ['0']
      else
        match fractionTable.find?
            (fun e => decide (|q - (((⌊q⌋).toNat : ℕ) : ℚ) - e.1| < 1/25)) with
        | some e =>
          if (⌊q⌋).toNat = 0 then e.2 else natChars (⌊q⌋).toNat ++ ' ' :: e.2
        | none =>
          if q - (((⌊q⌋).toNat : ℕ) : ℚ) < 1/25 then natChars (⌊q⌋).toNat
          else if q - (((⌊q⌋).toNat : ℕ) : ℚ) > 24/25 then natChars ((⌊q⌋).toNat + 1)
          else stripTrail (toFixed2 q) := rfl

theorem mem_stripTrail {c : Char} {l : Chars} (h : c ∈ stripTrail l) : c ∈ l := by
  simp only [stripTrail] at h
  by_cases hz : l.reverse.takeWhile (fun c => c = '0') = []
  · rwa [if_pos hz] at h
  · rw [if_neg hz] at h
    have hsub : ∀ x, x ∈ l.reverse.dropWhile (fun c => c = '0') → x ∈ l := fun x hx =>
      List.mem_reverse.mp ((List.dropWhile_sublist _).mem hx)
    by_cases hh : (l.reverse.dropWhile (fun c => c = '0')).head? = some '.'
    · rw [if_pos hh] at h
      rw [List.mem_reverse] at h
      exact hsub c (List.tail_sublist _ |>.mem h)
    · rw [if_neg hh] at h
      rw [List.mem_reverse] at h
      exact hsub c h

theorem toFixed2_chars (q : ℚ) : ∀ c ∈ toFixed2 q, isDigitC c = true ∨ c = '.' := by
  intro c hc
  simp only [toFixed2] at hc
  rcases List.mem_append.mp hc with h | h
  · exact Or.inl (natChars_digits _ c h)
  · rcases List.mem_cons.mp h with rfl | h
    · exact Or.inr rfl
    · rcases List.mem_cons.mp h with rfl | h
      · exact Or.inl (digitChar_digit _)
      · rcases List.mem_cons.mp h with rfl | h
        · exact Or.inl (digitChar_digit _)
        · simp at h

theorem no_nl_formatQuantity (q : ℚ) : '\n' ∉ formatQuantity q := by
  rw [formatQuantity_eq]
  by_cases h : q ≤ 0
  · rw [if_pos h]
    decide
  · rw [if_neg h]
    have hdig : ∀ n : ℕ, '\n' ∉ natChars n := by
      intro n hm
      have := natChars_digits n _ hm
      exact absurd this (by decide)
    split
    case _ e heq =>
      have he := List.mem_of_find?_eq_some heq
      have hnl : '\n' ∉ e.2 := (by decide : ∀ e ∈ fractionTable, '\n' ∉ e.2) e he
      by_cases h0 : (⌊q⌋).toNat = 0
      · rw [if_pos h0]
        exact hnl
      · rw [if_neg h0]
        intro hm
        rcases List.mem_append.mp hm with hm | hm
        · exact hdig _ hm
        · rcases List.mem_cons.mp hm with h1 | h1
          · exact absurd h1 (by decide)
          · exact hnl h1
    case _ heq =>
      by_cases h1 : q - (((⌊q⌋).toNat : ℕ) : ℚ) < 1/25
      · rw [if_pos h1]
        exact hdig _
      · rw [if_neg h1]
        by_cases h2 : q - (((⌊q⌋).toNat : ℕ) : ℚ) > 24/25
        · rw [if_pos h2]
          exact hdig _
        · rw [if_neg h2]
          intro hm
          rcases toFixed2_chars q '\n' (mem_stripTrail hm) with h3 | h3
          · exact absurd h3 (by decide)
          · exact absurd h3 (by decide)

theorem no_nl_formatJS (n : JSNum) : '\n' ∉ formatJS n := by
  cases n with
  | val q => exact no_nl_formatQuantity q
  | inf => decide
  | ninf => decide
  | nan => decide

theorem matchQty_rest_no_nl (l tok rest : Chars) (h : matchQty l = some (tok, rest)) :
    '\n' ∉ rest := by
  obtain ⟨p, _, hfin⟩ := findSome?_some h
  simp only [finishQty] at hfin
  split at hfin
  · exact absurd hfin (by simp)
  · injection hfin with hfin2
    injection hfin2 with _ hrest
    intro hm
    rw [← hrest] at hm
    have := List.mem_takeWhile_imp hm
    simp only [Bool.not_eq_true'] at this
    exact absurd this (by decide)

theorem processLine_no_nl (r : ℚ) (raw : Chars) (h : '\n' ∉ raw) :
    '\n' ∉ processLine r raw := by
  rw [processLine_eq]
  by_cases ht : trimC raw = []
  · rw [if_pos ht]
    simp
  · rw [if_neg ht]
    have htr : '\n' ∉ trimC raw := fun hm => h (mem_trimC hm)
    cases hq : matchQty (trimC raw) with
    | none =>
      simp only [hq]
      exact htr
    | some p =>
      rcases p with ⟨tok, rest⟩
      simp only [hq]
      have hbody : ∀ x : JSNum, '\n' ∉ formatJS (mulJS x r) ++ ' ' :: rest := by
        intro x hm
        rcases List.mem_append.mp hm with hm | hm
        · exact no_nl_formatJS _ hm
        · rcases List.mem_cons.mp hm with h1 | h1
          · exact absurd h1 (by decide)
          · exact matchQty_rest_no_nl _ _ _ hq h1
      cases hpq : parseQuantity tok with
      | nan => exact htr
      | val q => exact hbody _
      | inf => exact hbody _
      | ninf => exact hbody _

theorem scaleText_eq (r : ℚ) (text : Chars) :
    scaleText r text =
      if trimC text = [] then []
      else joinNL ((splitNL (trimC text)).map (processLine r)) := rfl

/-- Claim C7 (amended): the whole input text is trimmed first (dropping
leading and trailing blank lines); AFTER that trim the scaler produces
exactly one output line per input line (the split of the output is the
line-wise map of the per-line transform over the split of the trimmed
input), and every line that is blank after trimming maps to an empty output
line. -/
theorem claim_C7 :
    (∀ (r : ℚ) (text : Chars), trimC text ≠ [] →
      splitNL (scaleText r text) = (splitNL (trimC text)).map (processLine r)) ∧
    (∀ (r : ℚ) (raw : Chars), trimC raw = [] → processLine r raw = []) := by
  constructor
  · intro r text h
    rw [scaleText_eq, if_neg h]
    apply splitNL_joinNL
    · intro hmap
      exact splitNL_ne_nil _ (List.map_eq_nil_iff.mp hmap)
    · intro p hp
      obtain ⟨a, ha, rfl⟩ := List.mem_map.mp hp
      exact processLine_no_nl r a (mem_splitNL_no_nl _ a ha)
  · intro r raw h
    rw [processLine_eq, if_pos h]

/-- Claim C7, counterexample: the input "\nsalt\n" has three lines, two of
them blank, but the scaled output is the single line "salt" — the whole-text
trim removes leading and trailing blank lines, so line count is NOT
preserved exactly. -/
theorem claim_C7_counterexample :
    (splitNL (scaleText 2 "\nsalt\n".data)).length = 1 ∧
    (splitNL "\nsalt\n".data).length = 3 ∧
    (splitNL (scaleText 2 "\nsalt\n".data)).length ≠ (splitNL "\nsalt\n".data).length := by
  exact ⟨by decide, by decide, by decide⟩

/-- Claim C7, witness: the amended per-line correspondence on a three-line
input with an interior blank line. -/
theorem claim_C7_witness :
    (trimC "a\n\n1 cup b".data ≠ []) ∧
    splitNL (scaleText 2 "a\n\n1 cup b".data)
      = (splitNL (trimC "a\n\n1 cup b".data)).map (processLine 2) :=
  ⟨by decide, claim_C7.1 2 "a\n\n1 cup b".data (by decide)⟩

/-! ### Round-trip tolerance -/

theorem C1_glyph (f v : ℚ) (G : Char) (D : Chars)
    (hmem : (G, D) ∈ substTable)
    (hfind : fractionTable.find? (fun e => decide (|f - e.1| < 1/25)) = some (f, [G]))
    (h0 : 0 < f) (h1 : f < 1)
    (hp0 : parseQuantity [G] = .val v)
    (hpf : parseFloatJS D = .val v)
    (hclose : |v - f| < 1/25) :
    ∀ w : ℕ, isClose (parseQuantity (formatQuantity ((w : ℚ) + f))) ((w : ℚ) + f) := by
  intro w
  rw [format_table_hit f [G] h0 h1 hfind w]
  by_cases hw : w = 0
  · subst hw
    rw [if_pos rfl, hp0]
    simp only [isClose, Nat.cast_zero]
    have he : v - ((0 : ℚ) + f) = v - f := by ring
    rw [he]
    exact hclose
  · rw [if_neg hw,
      show (natChars w ++ ' ' :: [G] : Chars) = natChars w ++ [' ', G] from rfl,
      parseQuantity_glyphTok w G D hmem, hpf]
    simp only [addWhole, isClose]
    have he : (w : ℚ) + v - ((w : ℚ) + f) = v - f := by ring
    rw [he]
    exact hclose

theorem C1_ascii (f : ℚ) (a b : ℕ) (g : Chars)
    (hg : g = natChars a ++ '/' :: natChars b)
    (hfind : fractionTable.find? (fun e => decide (|f - e.1| < 1/25)) = some (f, g))
    (h0 : 0 < f) (h1 : f < 1)
    (hj : jdivNat a b = .val f) :
    ∀ w : ℕ, isClose (parseQuantity (formatQuantity ((w : ℚ) + f))) ((w : ℚ) + f) := by
  intro w
  rw [format_table_hit f g h0 h1 hfind w]
  by_cases hw : w = 0
  · subst hw
    rw [if_pos rfl, hg, parseQuantity_frac a b, hj]
    simp only [isClose, Nat.cast_zero]
    have he : f - ((0 : ℚ) + f) = 0 := by ring
    rw [he]
    norm_num
  · rw [if_neg hw, hg, parseQuantity_mixed w a b, hj]
    simp only [addWhole, isClose]
    have he : (w : ℚ) + f - ((w : ℚ) + f) = 0 := by ring
    rw [he]
    norm_num

/-- Claim C1: for every entry (f, glyph) of the 11-entry common-fraction
table and every non-negative integer whole, the formatted value of
whole + f parses back to a finite value within the 0.04 glyph-selection
tolerance of whole + f — formatting is a left-inverse of parsing up to that
tolerance. -/
theorem claim_C1 : ∀ (f : ℚ) (g : Chars), (f, g) ∈ fractionTable →
    ∀ w : ℕ, isClose (parseQuantity (formatQuantity ((w : ℚ) + f))) ((w : ℚ) + f) := by
  intro f g hmem
  simp only [fractionTable, List.mem_cons, List.not_mem_nil, or_false,
    Prod.mk.injEq] at hmem
  obtain ⟨rfl, rfl⟩ | hmem := hmem
  · exact C1_glyph (1/8) (1/8) '⅛' "0.125".data (by decide) (by decide)
      (by norm_num) (by norm_num) (by decide) (by decide) (by norm_num)
  obtain ⟨rfl, rfl⟩ | hmem := hmem
  · exact C1_ascii (1/6) 1 6 "1/6".data (by decide) (by decide)
      (by norm_num) (by norm_num) (by decide)
  obtain ⟨rfl, rfl⟩ | hmem := hmem
  · exact C1_glyph (1/4) (1/4) '¼' "0.25".data (by decide) (by decide)
      (by norm_num) (by norm_num) (by decide) (by decide) (by norm_num)
  obtain ⟨rfl, rfl⟩ | hmem := hmem
  · exact C1_glyph (1/3) (3333333333333333/10000000000000000) '⅓'
      "0.3333333333333333".data (by decide) (by decide)
      (by norm_num) (by norm_num) (by decide) (by decide)
      (by rw [abs_sub_lt_iff]; constructor <;> norm_num)
  obtain ⟨rfl, rfl⟩ | hmem := hmem
  · exact C1_glyph (3/8) (3/8) '⅜' "0.375".data (by decide) (by decide)
      (by norm_num) (by norm_num) (by decide) (by decide) (by norm_num)
  obtain ⟨rfl, rfl⟩ | hmem := hmem
  · exact C1_glyph (1/2) (1/2) '½' "0.5".data (by decide) (by decide)
      (by norm_num) (by norm_num) (by decide) (by decide) (by norm_num)
  obtain ⟨rfl, rfl⟩ | hmem := hmem
  · exact C1_glyph (5/8) (5/8) '⅝' "0.625".data (by decide) (by decide)
      (by norm_num) (by norm_num) (by decide) (by decide) (by norm_num)
  obtain ⟨rfl, rfl⟩ | hmem := hmem
  · exact C1_glyph (2/3) (3333333333333333/5000000000000000) '⅔'
      "0.6666666666666666".data (by decide) (by decide)
      (by norm_num) (by norm_num) (by decide) (by decide)
      (by rw [abs_sub_lt_iff]; constructor <;> norm_num)
  obtain ⟨rfl, rfl⟩ | hmem := hmem
  · exact C1_glyph (3/4) (3/4) '¾' "0.75".data (by decide) (by decide)
      (by norm_num) (by norm_num) (by decide) (by decide) (by norm_num)
  obtain ⟨rfl, rfl⟩ | hmem := hmem
  · exact C1_ascii (5/6) 5 6 "5/6".data (by decide) (by decide)
      (by norm_num) (by norm_num) (by decide)
  obtain ⟨rfl, rfl⟩ := hmem
  exact C1_glyph (7/8) (7/8) '⅞' "0.875".data (by decide) (by decide)
      (by norm_num) (by norm_num) (by decide) (by decide) (by norm_num)

/-- Claim C1, witness: the round-trip tolerance at the table entry 1/3 with
whole part 2. -/
theorem claim_C1_witness :
    ((1/3 : ℚ), ['⅓']) ∈ fractionTable ∧
    isClose (parseQuantity (formatQuantity (((2 : ℕ) : ℚ) + 1/3)))
      (((2 : ℕ) : ℚ) + 1/3) :=
  ⟨by decide, claim_C1 (1/3) ['⅓'] (by decide) 2⟩

/-! ### Every formatter output is parseable -/

theorem stripTrail_toFixed (A : Chars) (c1 c0 : Char)
    (hc1d : isDigitC c1 = true) (hc0d : isDigitC c0 = true) :
    stripTrail (A ++ '.' :: [c1, c0]) =
      if c0 = '0' then (if c1 = '0' then A else A ++ ['.', c1])
      else A ++ ['.', c1, c0] := by
  have hrev : (A ++ '.' :: [c1, c0]).reverse = c0 :: c1 :: '.' :: A.reverse := by
    simp
  by_cases hc0 : c0 = '0'
  · subst hc0
    rw [if_pos rfl]
    by_cases hc1 : c1 = '0'
    · subst hc1
      rw [if_pos rfl]
      simp only [stripTrail, hrev]
      rw [if_neg (by simp [List.takeWhile_cons])]
      have hr1 : List.dropWhile (fun c => decide (c = '0'))
          ('0' :: '0' :: '.' :: A.reverse) = '.' :: A.reverse := by
        simp [List.dropWhile_cons]
      rw [hr1]
      simp
    · rw [if_neg hc1]
      simp only [stripTrail, hrev]
      rw [if_neg (by simp [List.takeWhile_cons])]
      have hr1 : List.dropWhile (fun c => decide (c = '0'))
          ('0' :: c1 :: '.' :: A.reverse) = c1 :: '.' :: A.reverse := by
        simp [List.dropWhile_cons, hc1]
      rw [hr1]
      rw [if_neg (by
        simp only [List.head?_cons, Option.some.injEq]
        exact digit_ne_of hc1d (by decide))]
      simp
  · rw [if_neg hc0]
    simp only [stripTrail, hrev]
    rw [if_pos (by simp [List.takeWhile_cons, hc0])]

theorem C10_glyph (wn : ℕ) (G : Char) (D : Chars) (v : ℚ)
    (hmem : (G, D) ∈ substTable) (hpf : parseFloatJS D = .val v) :
    parseQuantity (natChars wn ++ ' ' :: [G]) ≠ JSNum.nan := by
  rw [show (natChars wn ++ ' ' :: [G] : Chars) = natChars wn ++ [' ', G] from rfl,
    parseQuantity_glyphTok wn G D hmem, hpf]
  simp [addWhole]

theorem C10_ascii (wn a b : ℕ) (v : ℚ) (hj : jdivNat a b = .val v) :
    parseQuantity (natChars wn ++ ' ' :: (natChars a ++ '/' :: natChars b))
      ≠ JSNum.nan := by
  rw [parseQuantity_mixed wn a b, hj]
  simp [addWhole]

/-- Claim C10: for every positive rational x, the formatted string is
non-empty and parses back to something other than the NaN sentinel — every
output shape of the formatter (lone glyph or ASCII fraction,
"whole glyph", bare integer, or stripped two-decimal string) is accepted by
the quantity parser. -/
theorem claim_C10 : ∀ x : ℚ, 0 < x →
    formatQuantity x ≠ [] ∧ parseQuantity (formatQuantity x) ≠ JSNum.nan := by
  intro x hx
  rw [formatQuantity_eq, if_neg (not_le.mpr hx)]
  split
  case _ e heq =>
    have he := List.mem_of_find?_eq_some heq
    by_cases h0 : (⌊x⌋).toNat = 0
    · rw [if_pos h0]
      have hall : ∀ p ∈ fractionTable, p.2 ≠ [] ∧ parseQuantity p.2 ≠ JSNum.nan := by
        decide
      exact hall e he
    · rw [if_neg h0]
      refine ⟨by simp [natChars_ne_nil], ?_⟩
      simp only [fractionTable, List.mem_cons, List.not_mem_nil, or_false] at he
      obtain rfl | he := he
      · exact C10_glyph _ '⅛' "0.125".data (1/8) (by decide) (by decide)
      obtain rfl | he := he
      · rw [show ((((1:ℚ)/6, ['1', '/', '6']).2 : Chars))
            = natChars 1 ++ '/' :: natChars 6 from by decide]
        exact C10_ascii _ 1 6 (1/6) (by decide)
      obtain rfl | he := he
      · exact C10_glyph _ '¼' "0.25".data (1/4) (by decide) (by decide)
      obtain rfl | he := he
      · exact C10_glyph _ '⅓' "0.3333333333333333".data
          (3333333333333333/10000000000000000) (by decide) (by decide)
      obtain rfl | he := he
      · exact C10_glyph _ '⅜' "0.375".data (3/8) (by decide) (by decide)
      obtain rfl | he := he
      · exact C10_glyph _ '½' "0.5".data (1/2) (by decide) (by decide)
      obtain rfl | he := he
      · exact C10_glyph _ '⅝' "0.625".data (5/8) (by decide) (by decide)
      obtain rfl | he := he
      · exact C10_glyph _ '⅔' "0.6666666666666666".data
          (3333333333333333/5000000000000000) (by decide) (by decide)
      obtain rfl | he := he
      · exact C10_glyph _ '¾' "0.75".data (3/4) (by decide) (by decide)
      obtain rfl | he := he
      · rw [show ((((5:ℚ)/6, ['5', '/', '6']).2 : Chars))
            = natChars 5 ++ '/' :: natChars 6 from by decide]
        exact C10_ascii _ 5 6 (5/6) (by decide)
      obtain rfl := he
      exact C10_glyph _ '⅞' "0.875".data (7/8) (by decide) (by decide)
  case _ heq =>
    by_cases h1 : x - (((⌊x⌋).toNat : ℕ) : ℚ) < 1/25
    · rw [if_pos h1]
      exact ⟨natChars_ne_nil _, by rw [parseQuantity_nat]; simp⟩
    · rw [if_neg h1]
      by_cases h2 : x - (((⌊x⌋).toNat : ℕ) : ℚ) > 24/25
      · rw [if_pos h2]
        exact ⟨natChars_ne_nil _, by rw [parseQuantity_nat]; simp⟩
      · rw [if_neg h2]
        rw [show toFixed2 x
            = natChars ((⌊x * 100 + 1/2⌋).toNat / 100)
              ++ '.' :: [digitChar ((⌊x * 100 + 1/2⌋).toNat / 10 % 10),
                digitChar ((⌊x * 100 + 1/2⌋).toNat % 10)] from rfl,
          stripTrail_toFixed _ _ _ (digitChar_digit _) (digitChar_digit _)]
        by_cases hc0 : digitChar ((⌊x * 100 + 1/2⌋).toNat % 10) = '0'
        · rw [if_pos hc0]
          by_cases hc1 : digitChar ((⌊x * 100 + 1/2⌋).toNat / 10 % 10) = '0'
          · rw [if_pos hc1]
            exact ⟨natChars_ne_nil _, by rw [parseQuantity_nat]; simp⟩
          · rw [if_neg hc1]
            refine ⟨by simp, ?_⟩
            rw [show (natChars ((⌊x * 100 + 1/2⌋).toNat / 100) ++
                ['.', digitChar ((⌊x * 100 + 1/2⌋).toNat / 10 % 10)] : Chars)
              = natChars ((⌊x * 100 + 1/2⌋).toNat / 100) ++
                '.' :: [digitChar ((⌊x * 100 + 1/2⌋).toNat / 10 % 10)] from rfl,
              parseQuantity_dec _ _ (by simp) (by
                intro c hc
                rcases List.mem_singleton.mp hc with rfl
                exact digitChar_digit _)]
            simp
        · rw [if_neg hc0]
          refine ⟨by simp, ?_⟩
          rw [show (natChars ((⌊x * 100 + 1/2⌋).toNat / 100) ++
              ['.', digitChar ((⌊x * 100 + 1/2⌋).toNat / 10 % 10),
                digitChar ((⌊x * 100 + 1/2⌋).toNat % 10)] : Chars)
            = natChars ((⌊x * 100 + 1/2⌋).toNat / 100) ++
              '.' :: [digitChar ((⌊x * 100 + 1/2⌋).toNat / 10 % 10),
                digitChar ((⌊x * 100 + 1/2⌋).toNat % 10)] from rfl,
            parseQuantity_dec _ _ (by simp) (by
              intro c hc
              rcases List.mem_cons.mp hc with rfl | hc
              · exact digitChar_digit _
              · rcases List.mem_singleton.mp hc with rfl
                exact digitChar_digit _)]
          simp

/-- Claim C10, witness: the round-trip acceptance at x = 3. -/
theorem claim_C10_witness :
    (0 : ℚ) < 3 ∧ (formatQuantity 3 ≠ [] ∧
      parseQuantity (formatQuantity 3) ≠ JSNum.nan) :=
  ⟨by norm_num, claim_C10 3 (by norm_num)⟩
